import Mathlib

/-!
Shallow embedding of the referral-network engine:
`ReferralNetwork` (core DAG store), `NetworkAnalysis` (reach analytics),
`InfluencerAnalysis` (greedy coverage and flow centrality),
`NetworkGrowthSimulation` (deterministic fluid growth model) and
`BonusOptimization` (binary-search bonus optimizer).

JavaScript `Map`s and `Set`s are modelled as insertion-ordered association
lists and duplicate-free insertion-ordered lists; JavaScript numbers are
modelled as exact rationals; thrown errors become explicit error values;
the unbounded `while` loops of the source become fuel-indexed recursions
whose fuel is proved (or chosen) large enough to match the source's own
termination behaviour.
-/

set_option maxHeartbeats 1000000
set_option maxRecDepth 8000

/-- Model of `Set.prototype.add` on a JavaScript `Set`, kept as an
insertion-ordered duplicate-free list. -/
def setAdd (l : List String) (x : String) : List String :=
  if l.contains x then l else l ++ [x]

/-- Model of `new Set(l)` / `Array.from(new Set(l))`:
first-occurrence deduplication preserving insertion order. -/
def dedupList (l : List String) : List String :=
  l.foldl setAdd []

/-- Association-list lookup modelling `Map.prototype.get`. -/
def findVal {β : Type} (k : String) : List (String × β) → Option β
  | [] => none
  | e :: es => if e.1 = k then some e.2 else findVal k es

/-- Model of `Map.prototype.set`: update in place when the key exists
(preserving insertion order), else append. -/
def mapSet {β : Type} (m : List (String × β)) (k : String) (v : β) :
    List (String × β) :=
  if (findVal k m).isSome then
    m.map (fun e => if e.1 = k then (e.1, v) else e)
  else m ++ [(k, v)]

/-- Model of `Array.prototype.slice(0, k)` for an integer `k`:
a negative end index counts from the end of the array. -/
def jsSlice0 {α : Type} (l : List α) (k : ℤ) : List α :=
  if k < 0 then l.take ((l.length + k).toNat) else l.take k.toNat

/-- One insertion step of a stable descending sort by a natural-number key:
the inserted element goes before the first element whose key is not larger,
so it precedes every element it ties with (matching the stability of
`Array.prototype.sort` with comparator `(a, b) => key(b) - key(a)`). -/
def insertByDesc {α : Type} (key : α → ℕ) (x : α) : List α → List α
  | [] => [x]
  | y :: ys => if key y ≤ key x then x :: y :: ys else y :: insertByDesc key x ys

/-- Stable descending sort by a natural-number key, modelling the stable
`Array.prototype.sort` with comparator `(a, b) => key(b) - key(a)`. -/
def sortByDesc {α : Type} (key : α → ℕ) : List α → List α
  | [] => []
  | x :: xs => insertByDesc key x (sortByDesc key xs)

/-! ## ReferralNetwork (GraphStore), from `src/unnamed/part_001` -/

/-- State of the `ReferralNetwork` class: `referrals` is the adjacency map
(referrer to insertion-ordered set of direct candidates), `referrers` the
reverse map (candidate to unique referrer), `users` the set of all users. -/
structure ReferralNetwork where
  referrals : List (String × List String)
  referrers : List (String × String)
  users : List String
deriving DecidableEq, Repr

/-- The constructor: all three containers start empty. -/
def emptyNetwork : ReferralNetwork := ⟨[], [], []⟩

/-- Body of `addUser` after its identifier-validation guard:
add to the user set, and create an empty adjacency entry if absent. -/
def addUserCore (net : ReferralNetwork) (userId : String) : ReferralNetwork :=
  { net with
    users := setAdd net.users userId
    referrals := if (findVal userId net.referrals).isSome then net.referrals
                 else net.referrals ++ [(userId, [])] }

/-- `addUser`: rejects an empty identifier (the source throws), otherwise
performs `addUserCore`. -/
def addUser (net : ReferralNetwork) (userId : String) : Option ReferralNetwork :=
  if userId = "" then none else some (addUserCore net userId)

/-- Direct-referral list of a user (`this.referrals.get(u)`, empty when
absent), as iterated by the traversals. -/
def adjOf (net : ReferralNetwork) (u : String) : List String :=
  (findVal u net.referrals).getD []

/-- Total number of stored edges (sum of adjacency-set sizes); used as the
fuel bound for the `canReach` depth-first search. -/
def totalAdjLen (net : ReferralNetwork) : ℕ :=
  (net.referrals.map (fun e => e.2.length)).sum

/-- The `while (stack.length > 0)` loop of `canReach`: pop the top of the
stack, skip it when already visited, otherwise return `true` when `toUser`
is one of its direct referrals and push all of them otherwise.  The stack
top is the list head, so the neighbours are pushed reversed (the source
pushes them in order onto the end of the array).  `none` means the fuel ran
out; `canReach` supplies fuel that provably never does. -/
def canReachLoop (net : ReferralNetwork) (toUser : String) :
    ℕ → List String → List String → Option Bool
  | _, [], _ => some false
  | 0, _ :: _, _ => none
  | fuel + 1, current :: rest, visited =>
    if visited.contains current then canReachLoop net toUser fuel rest visited
    else if (adjOf net current).contains toUser then some true
    else canReachLoop net toUser fuel ((adjOf net current).reverse ++ rest)
      (current :: visited)

/-- `canReach(fromUser, toUser)`: `true` immediately when the two are equal,
otherwise the iterative depth-first search over the adjacency map. -/
def canReach (net : ReferralNetwork) (fromUser toUser : String) : Bool :=
  if fromUser = toUser then true
  else (canReachLoop net toUser (1 + totalAdjLen net) [fromUser] []).getD false

/-- `wouldCreateCycle`: the candidate can already reach the referrer. -/
def wouldCreateCycle (net : ReferralNetwork) (referrerId candidateId : String) :
    Bool :=
  canReach net candidateId referrerId

/-- Outcomes of `addReferral`: success, or the reason of the thrown error. -/
inductive AddResult
  | ok | invalidIds | selfReferral | duplicateReferrer | cycleDetected
deriving DecidableEq, Repr

/-- `addReferral(referrerId, candidateId)`.  The source validates the
identifiers, rejects self-referrals, **then** adds both users via
`addUser`, and only afterwards checks the unique-referrer and cycle
constraints; a throw at those later checks therefore leaves the users
added.  The returned state is the object's state when the call ends,
whether it returned `true` or threw. -/
def addReferral (net : ReferralNetwork) (referrerId candidateId : String) :
    AddResult × ReferralNetwork :=
  if referrerId = "" ∨ candidateId = "" then (.invalidIds, net)
  else if referrerId = candidateId then (.selfReferral, net)
  else
    let net1 := addUserCore (addUserCore net referrerId) candidateId
    if (findVal candidateId net1.referrers).isSome then (.duplicateReferrer, net1)
    else if wouldCreateCycle net1 referrerId candidateId then (.cycleDetected, net1)
    else (.ok,
      { net1 with
        referrals := net1.referrals.map (fun e =>
          if e.1 = referrerId then (e.1, setAdd e.2 candidateId) else e)
        referrers := mapSet net1.referrers candidateId referrerId })

/-- `getDirectReferrals(userId)`: the adjacency set, empty when unknown. -/
def getDirectReferrals (net : ReferralNetwork) (userId : String) : List String :=
  adjOf net userId

/-- `getReferrer(userId)`: the recorded referrer, if any. -/
def getReferrer (net : ReferralNetwork) (userId : String) : Option String :=
  findVal userId net.referrers

/-- Run a sequence of `addReferral` calls from the empty network, keeping
the state each call leaves behind whether it was accepted or rejected. -/
def runReferrals (ops : List (String × String)) : ReferralNetwork :=
  ops.foldl (fun net op => (addReferral net op.1 op.2).2) emptyNetwork

/-- The directed edge relation of the stored graph: `b` is a direct
referral of `a`. -/
def NetEdge (net : ReferralNetwork) (a b : String) : Prop := b ∈ adjOf net a

/-- Reachability through zero or more directed edges. -/
def Reaches (net : ReferralNetwork) : String → String → Prop :=
  Relation.ReflTransGen (NetEdge net)

/-- Acyclicity: no node reaches itself through one or more directed edges. -/
def AcyclicNet (net : ReferralNetwork) : Prop :=
  ∀ x, ¬ Relation.TransGen (NetEdge net) x x

/-- In-degree of a candidate: how many adjacency entries record it,
counted with multiplicity across all referrers. -/
def inDegree (net : ReferralNetwork) (c : String) : ℕ :=
  (net.referrals.map (fun e => e.2.count c)).sum

/-! ## NetworkAnalysis, from `src/frontend/src/NetworkAnalysis.js` -/

/-- Inner `for` loop shared by the breadth-first traversals of
`calculateReach`: enqueue and mark each not-yet-visited direct referral.
State is `(queue, visited)`. -/
def bfsVisitStep (ns : List String) (qv : List String × List String) :
    List String × List String :=
  ns.foldl (fun acc n =>
    if acc.2.contains n then acc else (acc.1 ++ [n], acc.2 ++ [n])) qv

/-- The `while (queue.length > 0)` loop of `calculateReach`, returning the
final visited set.  Fuel exhaustion returns the visited set so far; the
callers supply fuel `1 + totalAdjLen` which bounds the iteration count
(each iteration pops one element, and at most one element is ever pushed
per stored edge). -/
def calcLoop (net : ReferralNetwork) :
    ℕ → List String → List String → List String
  | 0, _, visited => visited
  | _ + 1, [], visited => visited
  | fuel + 1, current :: rest, visited =>
    let t := bfsVisitStep (adjOf net current) (rest, visited)
    calcLoop net fuel t.1 t.2

/-- `calculateReach(userId)`: 0 for an unknown user, otherwise the size of
the BFS visited set minus one (excluding the user itself). -/
def calculateReach (net : ReferralNetwork) (userId : String) : ℕ :=
  if net.users.contains userId then
    (calcLoop net (1 + totalAdjLen net) [userId] [userId]).length - 1
  else 0

/-- State of the `InfluencerAnalysis` class (which inherits the graph from
`ReferralNetwork` via `NetworkAnalysis` and adds the two caches in its
constructor). -/
structure InfluencerAnalysis where
  net : ReferralNetwork
  reachCache : List (String × List String)
  distanceCache : List (String × List (String × ℕ))
deriving DecidableEq, Repr

/-- A freshly constructed `InfluencerAnalysis`: empty graph, empty caches. -/
def initIA : InfluencerAnalysis := ⟨emptyNetwork, [], []⟩

/-- `addReferral` invoked on an `InfluencerAnalysis` object: the inherited
method mutates only the graph fields and never touches either cache. -/
def addReferralIA (ia : InfluencerAnalysis) (referrerId candidateId : String) :
    AddResult × InfluencerAnalysis :=
  let r := addReferral ia.net referrerId candidateId
  (r.1, { ia with net := r.2 })

/-- Inner `for` loop of the `getReachSet` traversal: like `bfsVisitStep`
but also appending each newly visited node to the reach set.
State is `(queue, visited, reachSet)`. -/
def bfsReachStep (ns : List String)
    (t : List String × List String × List String) :
    List String × List String × List String :=
  ns.foldl (fun acc n =>
    if acc.2.1.contains n then acc
    else (acc.1 ++ [n], acc.2.1 ++ [n], acc.2.2 ++ [n])) t

/-- The `while` loop of `getReachSet`, returning the accumulated reach set. -/
def reachLoop (net : ReferralNetwork) :
    ℕ → List String → List String → List String → List String
  | 0, _, _, reachSet => reachSet
  | _ + 1, [], _, reachSet => reachSet
  | fuel + 1, current :: rest, visited, reachSet =>
    let t := bfsReachStep (adjOf net current) (rest, visited, reachSet)
    reachLoop net fuel t.1 t.2.1 t.2.2

/-- `getReachSet(userId)`: return the cached set when present; otherwise
the empty set for an unknown user (without caching), or the BFS descendant
set, cached before returning.  The pair is (returned set, object state
after the call). -/
def getReachSet (ia : InfluencerAnalysis) (userId : String) :
    List String × InfluencerAnalysis :=
  match findVal userId ia.reachCache with
  | some s => (s, ia)
  | none =>
    if ia.net.users.contains userId then
      let r := reachLoop ia.net (1 + totalAdjLen ia.net) [userId] [userId] []
      (r, { ia with reachCache := mapSet ia.reachCache userId r })
    else ([], ia)

/-- The `userReachPairs` array of `getTopReferrersByReach`: reach of every
user in insertion order, keeping only positive reach. -/
def topPairs (net : ReferralNetwork) : List (String × ℕ) :=
  net.users.foldl (fun acc u =>
    let reach := calculateReach net u
    if 0 < reach then acc ++ [(u, reach)] else acc) []

/-- `getTopReferrersByReach(k)`: the positive-reach pairs, stable-sorted by
reach descending, then `slice(0, k)`. -/
def getTopReferrersByReach (net : ReferralNetwork) (k : ℤ) :
    List (String × ℕ) :=
  jsSlice0 (sortByDesc Prod.snd (topPairs net)) k

/-- `clearCaches()`. -/
def clearCaches (ia : InfluencerAnalysis) : InfluencerAnalysis :=
  { ia with reachCache := [], distanceCache := [] }

/-! ## InfluencerAnalysis, from `src/frontend/src/InfluencerAnalysis.js` -/

/-- The `newUsers` set of one candidate referrer inside the greedy loop:
its reach set filtered to nodes not yet globally covered
(`new Set([...reachSet].filter(u => !globalCoveredSet.has(u)))`). -/
def marginalList (rs : List (String × List String)) (global : List String)
    (r : String) : List String :=
  dedupList (((findVal r rs).getD []).filter (fun u => !global.contains u))

/-- The inner `for (const referrer of activeReferrers)` loop selecting the
best referrer: strict improvement only, so the first maximizer in list
order wins. -/
def findBest (rs : List (String × List String)) (global : List String) :
    List String → Option (String × List String) → ℕ →
    Option (String × List String) × ℕ
  | [], best, bestN => (best, bestN)
  | r :: rest, best, bestN =>
    let nu := marginalList rs global r
    if bestN < nu.length then findBest rs global rest (some (r, nu)) nu.length
    else findBest rs global rest best bestN

/-- One recorded selection of `calculateUniqueReachExpansion`. -/
structure Selection where
  userId : String
  uniqueContribution : ℕ
  totalReach : ℕ
  newUsersCovered : List String
deriving DecidableEq, Repr

/-- The return value of `calculateUniqueReachExpansion`. -/
structure ExpansionResult where
  selectedReferrers : List Selection
  totalUniqueCoverage : ℕ
  efficiency : ℚ
deriving DecidableEq, Repr

/-- The greedy selection loop: up to `fuel` rounds while candidates remain;
stop when the best marginal contribution is zero; otherwise record the
selection, add the new users to the global covered set, and remove the
selected referrer.  Returns (selections, final covered set). -/
def greedyLoop (rs : List (String × List String)) :
    ℕ → List String → List String → List Selection →
    List Selection × List String
  | 0, _, global, sels => (sels, global)
  | fuel + 1, active, global, sels =>
    if active.isEmpty then (sels, global)
    else
      match findBest rs global active none 0 with
      | (some (r, nu), bestN) =>
        greedyLoop rs fuel (active.erase r) (nu.foldl setAdd global)
          (sels ++ [⟨r, bestN, ((findVal r rs).getD []).length, nu⟩])
      | (none, _) => (sels, global)

/-- The precomputation loop of `calculateUniqueReachExpansion`: reach sets
of every user in insertion order (threading the cache mutations of
`getReachSet`), keeping the users with a nonzero reach set as
`(userReachSets, activeReferrers)`. -/
def reachSetsOf (ia : InfluencerAnalysis) :
    (List (String × List String) × List String) × InfluencerAnalysis :=
  ia.net.users.foldl
    (fun (acc : (List (String × List String) × List String) × InfluencerAnalysis) u =>
      let su := getReachSet acc.2 u
      if 0 < su.1.length then ((acc.1.1 ++ [(u, su.1)], acc.1.2 ++ [u]), su.2)
      else (acc.1, su.2)) (([], []), ia)

/-- `calculateUniqueReachExpansion(maxReferrers)`: precompute the reach
sets, run the greedy loop, and report total coverage and efficiency. -/
def calculateUniqueReachExpansion (ia : InfluencerAnalysis)
    (maxReferrers : ℕ) : ExpansionResult × InfluencerAnalysis :=
  let pre := reachSetsOf ia
  let g := greedyLoop pre.1.1 maxReferrers pre.1.2 [] []
  (⟨g.1, g.2.length,
    if 0 < g.1.length then (g.2.length : ℚ) / g.1.length else 0⟩, pre.2)

/-- Lookup in the all-pairs distance structure:
`distances.get(a)?.get(b)`. -/
def distOf (dists : List (String × List (String × ℕ))) (a b : String) :
    Option ℕ :=
  (findVal a dists).bind (fun m => findVal b m)

/-- The broker test of `calculateFlowCentrality`: both partial distances are
defined and they sum to the direct distance. -/
def brokerHit (dists : List (String × List (String × ℕ)))
    (s t v : String) (dd : ℕ) : Bool :=
  match distOf dists s v, distOf dists v t with
  | some d1, some d2 => d1 + d2 == dd
  | _, _ => false

/-- The ordered enumeration of pairs `(allUsers[i], allUsers[j])` with
`i < j` produced by the double loop. -/
def pairsOf {α : Type} : List α → List (α × α)
  | [] => []
  | x :: xs => xs.map (fun y => (x, y)) ++ pairsOf xs

/-- `centralityScores.set(broker, centralityScores.get(broker) + 1)`:
every user is a key of the score map. -/
def bumpScore (m : List (String × ℕ)) (k : String) : List (String × ℕ) :=
  m.map (fun e => if e.1 = k then (e.1, e.2 + 1) else e)

/-- The per-source BFS of `computeAllPairsDistances`, recording each node's
hop distance when it is dequeued. -/
def distLoop (net : ReferralNetwork) :
    ℕ → List (String × ℕ) → List String → List (String × ℕ) →
    List (String × ℕ)
  | 0, _, _, d => d
  | _ + 1, [], _, d => d
  | fuel + 1, (current, dist) :: rest, visited, d =>
    let t := (adjOf net current).foldl
      (fun (acc : List (String × ℕ) × List String) n =>
        if acc.2.contains n then acc
        else (acc.1 ++ [(n, dist + 1)], acc.2 ++ [n]))
      (rest, visited)
    distLoop net fuel t.1 t.2 (mapSet d current dist)

/-- `computeAllPairsDistances` without the cache: one BFS per user, in user
insertion order. -/
def allPairsDistances (net : ReferralNetwork) :
    List (String × List (String × ℕ)) :=
  net.users.foldl (fun acc source =>
    mapSet acc source (distLoop net (1 + totalAdjLen net) [(source, 0)] [source] []))
    []

/-- `computeAllPairsDistances()`: return the cache when nonempty, otherwise
compute and store it. -/
def computeAllPairsDistances (ia : InfluencerAnalysis) :
    List (String × List (String × ℕ)) × InfluencerAnalysis :=
  if ia.distanceCache.isEmpty then
    let d := allPairsDistances ia.net
    (d, { ia with distanceCache := d })
  else (ia.distanceCache, ia)

/-- One ranked entry of `calculateFlowCentrality`. -/
structure BrokerRec where
  userId : String
  centralityScore : ℕ
  normalizedScore : ℚ
deriving DecidableEq, Repr

/-- The `centralityScores` map after the double loop of
`calculateFlowCentrality`: scores initialized to zero for every user in
insertion order, then bumped for every ordered user pair `(s, t)` (with `s`
before `t` in insertion order) whose direct distance is defined and which
the broker splits exactly. -/
def flowScores (allUsers : List String)
    (dists : List (String × List (String × ℕ))) : List (String × ℕ) :=
  (pairsOf allUsers).foldl (fun m st =>
    match distOf dists st.1 st.2 with
    | none => m
    | some dd => allUsers.foldl (fun m v =>
        if v = st.1 ∨ v = st.2 then m
        else if brokerHit dists st.1 st.2 v dd then bumpScore m v else m) m)
    (allUsers.map (fun u => (u, 0)))

/-- The `rankedBrokers` list before sorting: scores mapped to records with
the normalized score, zero scores filtered out. -/
def flowRanked (allUsers : List String)
    (dists : List (String × List (String × ℕ))) : List BrokerRec :=
  ((flowScores allUsers dists).map (fun e =>
    BrokerRec.mk e.1 e.2
      (if 2 < allUsers.length then
        (e.2 : ℚ) / (((allUsers.length : ℚ) - 1) * ((allUsers.length : ℚ) - 2))
       else 0))).filter (fun b => 0 < b.centralityScore)

/-- `calculateFlowCentrality(topK)`: compute (or fetch) the distance
matrix, score the brokers, normalize and filter, stable-sort by score
descending and `slice(0, topK)`. -/
def calculateFlowCentrality (ia : InfluencerAnalysis) (topK : ℤ) :
    List BrokerRec × InfluencerAnalysis :=
  let cd := computeAllPairsDistances ia
  (jsSlice0 (sortByDesc BrokerRec.centralityScore
    (flowRanked ia.net.users cd.1)) topK, cd.2)

/-! ## NetworkGrowthSimulation, from `src/frontend/src/NetworkGrowthSimulation.js` -/

/-- `this.INITIAL_REFERRERS = 100`. -/
def INITIAL_REFERRERS : ℚ := 100

/-- `this.MAX_REFERRALS_PER_USER = 10`. -/
def MAX_REFERRALS_PER_USER : ℚ := 10

/-- The two validation errors thrown by `simulate`. -/
inductive SimErr
  | probOutOfRange | daysOutOfRange
deriving DecidableEq, Repr

/-- The daily loop of `simulate`, producing the cumulative total at the end
of each day from the current active-referrer count and cumulative total. -/
def simList (p : ℚ) : ℕ → ℚ → ℚ → List ℚ
  | 0, _, _ => []
  | d + 1, activeReferrers, cumulativeReferrals =>
    let expectedDailyReferrals := activeReferrers * p
    let c' := cumulativeReferrals + expectedDailyReferrals
    let referrersBecomingInactive :=
      min activeReferrers (expectedDailyReferrals / MAX_REFERRALS_PER_USER)
    let a' := max 0
      (activeReferrers - referrersBecomingInactive + expectedDailyReferrals)
    c' :: simList p d a' c'

/-- The body of `simulate` after its bounds checks. -/
def simulateCore (p : ℚ) (days : ℕ) : List ℚ :=
  simList p days INITIAL_REFERRERS 0

/-- `simulate(p, days)`: bounds-checked (`0 ≤ p ≤ 1`, `days ≤ 10000`; the
nonnegativity of `days` is carried by the type). -/
def simulate (p : ℚ) (days : ℕ) : Except SimErr (List ℚ) :=
  if p < 0 ∨ 1 < p then .error .probOutOfRange
  else if 10000 < days then .error .daysOutOfRange
  else .ok (simulateCore p days)

/-- Result of `daysToTarget`: a day count, or the `Infinity` sentinel. -/
inductive DtRes
  | val (d : ℕ) | unreachable
deriving DecidableEq, Repr

/-- The `while (cumulativeReferrals < targetTotal)` loop of
`linearSearchDays`, including its `day > 20000` sentinel guard.  The fuel
`20001` supplied by `linearSearchDays` exceeds the guard's iteration bound,
so the fuel-exhaustion branch is never taken. -/
def linLoop (p target : ℚ) : ℕ → ℕ → ℚ → ℚ → DtRes
  | 0, _, _, _ => .unreachable
  | fuel + 1, day, activeReferrers, cumulativeReferrals =>
    if cumulativeReferrals < target then
      let expectedDailyReferrals := activeReferrers * p
      let c' := cumulativeReferrals + expectedDailyReferrals
      if target ≤ c' then .val day
      else
        let a' := max 0 (activeReferrers -
          min activeReferrers (expectedDailyReferrals / MAX_REFERRALS_PER_USER) +
          expectedDailyReferrals)
        if 20000 < day + 1 then .unreachable
        else linLoop p target fuel (day + 1) a' c'
    else .val (day - 1)

/-- `linearSearchDays(p, targetTotal)`. -/
def linearSearchDays (p target : ℚ) : DtRes :=
  linLoop p target 20001 1 INITIAL_REFERRERS 0

/-- The doubling loop of `binarySearchDays` that raises `high` until the
simulated total reaches the target, capped at `200000` (`none` models the
`Infinity` return).  Each round simulates at the current bound, so a bound
above `10000` days propagates `simulate`'s thrown error.  `high` at least
doubles each round, so the supplied fuel `40` exceeds the rounds the
`200000` cap allows and the fuel-exhaustion branch is never taken. -/
def growLoop (p target : ℚ) : ℕ → ℕ → Except SimErr (Option ℕ)
  | 0, high => .ok (some high)
  | fuel + 1, high => do
    let hs ← simulate p high
    if hs.getD (high - 1) 0 < target then
      let high' := high * 2
      if 200000 < high' then .ok none
      else growLoop p target fuel high'
    else .ok (some high)

/-- The `while (low < high)` binary search of `binarySearchDays`.  The
interval shrinks every round, so fuel `high + 1` never runs out. -/
def binLoop (p target : ℚ) : ℕ → ℕ → ℕ → Except SimErr ℕ
  | 0, low, _ => .ok low
  | fuel + 1, low, high =>
    if low < high then do
      let mid := (low + high) / 2
      let results ← simulate p mid
      if 0 < results.length ∧ target ≤ results.getD (mid - 1) 0 then
        binLoop p target fuel low mid
      else binLoop p target fuel (mid + 1) high
    else .ok low

/-- `binarySearchDays(p, targetTotal)`: initial upper bound
`ceil(target / (100 p)) + 100`, doubling to a sufficient bound, then binary
search for the minimal day count. -/
def binarySearchDays (p target : ℚ) : Except SimErr DtRes := do
  let high0 : ℕ := (⌈target / (INITIAL_REFERRERS * p)⌉ + 100).toNat
  match ← growLoop p target 40 high0 with
  | none => .ok .unreachable
  | some high => do
    let d ← binLoop p target (high + 1) 1 high
    .ok (.val d)

/-- `daysToTarget(p, targetTotal)`: the `p ≤ 0` check precedes the
`target ≤ 0` check; small targets use the linear scan, large ones the
binary search. -/
def daysToTarget (p target : ℚ) : Except SimErr DtRes :=
  if p ≤ 0 then .ok .unreachable
  else if target ≤ 0 then .ok (.val 0)
  else if target < 1000 then .ok (linearSearchDays p target)
  else binarySearchDays p target

/-! ## BonusOptimization, from `src/unnamed/part_000` -/

/-- The bounded doubling loop of `findMaxSearchBonus` (`maxIterations = 20`
is the source's own loop bound; running out of iterations returns `null`). -/
def findMaxLoop (adoptionProb : ℚ → ℚ) (targetHires : ℚ) (days : ℕ) :
    ℕ → ℚ → Except SimErr (Option ℚ)
  | 0, _ => .ok none
  | fuel + 1, testBonus => do
    let probability := adoptionProb testBonus
    if (99 : ℚ) / 100 ≤ probability then do
      let results ← simulate probability days
      if targetHires ≤ results.getLastD 0 then .ok (some testBonus)
      else .ok none
    else do
      let results ← simulate probability days
      if targetHires ≤ results.getLastD 0 then .ok (some testBonus)
      else
        if (100000 : ℚ) < testBonus * 2 then .ok none
        else findMaxLoop adoptionProb targetHires days fuel (testBonus * 2)

/-- `findMaxSearchBonus(adoptionProb, targetHires, days)`: start at $10. -/
def findMaxSearchBonus (adoptionProb : ℚ → ℚ) (targetHires : ℚ) (days : ℕ) :
    Except SimErr (Option ℚ) :=
  findMaxLoop adoptionProb targetHires days 20 10

/-- The `while (high - low > eps)` binary search of `minBonusForTarget`,
carrying the best bonus found so far.  On fuel exhaustion it returns the
best so far; `minBonusForTarget` supplies fuel under which a positive `eps`
always reaches the exit condition first, matching the source loop (whose
interval width halves exactly each round). -/
def bonusLoop (adoptionProb : ℚ → ℚ) (targetHires : ℚ) (days : ℕ) (eps : ℚ) :
    ℕ → ℚ → ℚ → Option ℚ → Except SimErr (Option ℚ)
  | 0, _, _, best => .ok best
  | fuel + 1, low, high, best =>
    if eps < high - low then do
      let mid := (low + high) / 2
      let results ← simulate (adoptionProb mid) days
      if targetHires ≤ results.getLastD 0 then
        bonusLoop adoptionProb targetHires days eps fuel low mid (some mid)
      else bonusLoop adoptionProb targetHires days eps fuel mid high best
    else .ok best

/-- Fuel sufficient for `bonusLoop` with a positive `eps`: the interval
width halves each round and `2 ^ (⌈range / eps⌉ + 1)` exceeds
`range / eps`. -/
def bonusFuel (range eps : ℚ) : ℕ := (⌈range / eps⌉).toNat + 1

/-- `minBonusForTarget(days, targetHires, adoptionProb, eps)`: `null` for a
non-positive timeframe or target, otherwise bound the search with
`findMaxSearchBonus`, binary-search the bonus axis, and round the best
bonus found up to the nearest $10. -/
def minBonusForTarget (days : ℕ) (targetHires : ℚ) (adoptionProb : ℚ → ℚ)
    (eps : ℚ) : Except SimErr (Option ℚ) :=
  if days = 0 ∨ targetHires ≤ 0 then .ok none
  else do
    match ← findMaxSearchBonus adoptionProb targetHires days with
    | none => .ok none
    | some maxBonus => do
      match ← bonusLoop adoptionProb targetHires days eps
          (bonusFuel maxBonus eps) 0 maxBonus none with
      | none => .ok none
      | some bestBonus => .ok (some ((⌈bestBonus / 10⌉ : ℚ) * 10))

/-- `results[results.length - 1] || 0` on a successful simulation: the
final cumulative total, `0` for an empty run. -/
def finalHires (p : ℚ) (days : ℕ) : ℚ :=
  (simulateCore p days).getLastD 0

/-! ## Specification-side definitions used to state the claims -/

/-- Specification-side score of `calculateFlowCentrality`, following the
spec's words: the number of enumerated pairs `(s, t)` with a defined direct
distance for which `v` is distinct from both and
`dist(s,v) + dist(v,t) = dist(s,t)`. -/
def flowScoreSpec (allUsers : List String)
    (dists : List (String × List (String × ℕ))) (v : String) : ℕ :=
  (pairsOf allUsers).countP (fun st =>
    match distOf dists st.1 st.2 with
    | some dd => !(v == st.1 || v == st.2) && brokerHit dists st.1 st.2 v dd
    | none => false)

/-- Claim-side score of `calculateFlowCentrality`, following the claim's
words rather than the code: count **every unordered pair** `{s, t}` of
other nodes **with a finite hop distance between them** — in whichever
orientation that distance is defined — for which the broker `v` splits
that distance exactly.  Each unordered pair is enumerated once (as the
insertion-ordered pair `(s, t)`); when the forward distance `dist(s, t)`
is undefined the reverse orientation `dist(t, s)` is tried, which the code
never does. -/
def flowScoreClaim (allUsers : List String)
    (dists : List (String × List (String × ℕ))) (v : String) : ℕ :=
  (pairsOf allUsers).countP (fun st =>
    !(v == st.1 || v == st.2) &&
    (match distOf dists st.1 st.2 with
     | some dd => brokerHit dists st.1 st.2 v dd
     | none =>
       match distOf dists st.2 st.1 with
       | some dd => brokerHit dists st.2 st.1 v dd
       | none => false))

/-- Specification-side description of the greedy selection process of
`calculateUniqueReachExpansion` (with the tie-break amended to
first-position-in-list order): `GreedySel rs fuel active global sels final`
holds when, starting from candidate list `active` and covered set `global`,
the greedy process performs exactly the selections `sels` and ends with
covered set `final`.  Each step picks a candidate whose marginal
contribution (its reach set minus the covered set) is maximal, positive,
and strictly larger than that of every candidate before it in the list;
the process stops when the budget or the candidates run out or when the
best marginal contribution is zero. -/
inductive GreedySel (rs : List (String × List String)) :
    ℕ → List String → List String → List Selection → List String → Prop
  | stopFuel (active global) : GreedySel rs 0 active global [] global
  | stopEmpty (fuel global) : GreedySel rs (fuel + 1) [] global [] global
  | stopZero (fuel) (active global) (hne : active ≠ [])
      (hz : ∀ q ∈ active, marginalList rs global q = []) :
      GreedySel rs (fuel + 1) active global [] global
  | pick (fuel : ℕ) (active global : List String) (r : String)
      (pre post : List String) (sels : List Selection) (gfinal : List String)
      (hsplit : active = pre ++ r :: post)
      (hpos : marginalList rs global r ≠ [])
      (hmax : ∀ q ∈ active,
        (marginalList rs global q).length ≤ (marginalList rs global r).length)
      (hfirst : ∀ q ∈ pre,
        (marginalList rs global q).length < (marginalList rs global r).length)
      (hrec : GreedySel rs fuel (active.erase r)
        ((marginalList rs global r).foldl setAdd global) sels gfinal) :
      GreedySel rs (fuel + 1) active global
        (⟨r, (marginalList rs global r).length,
          ((findVal r rs).getD []).length, marginalList rs global r⟩ :: sels)
        gfinal

/-- Bundle of structural invariants maintained by every `addReferral`
call: adjacency keys are distinct, every adjacency set is duplicate-free,
the edge relation agrees exactly with the reverse referrer map, and the
graph is acyclic. -/
def NetInv (net : ReferralNetwork) : Prop :=
  (net.referrals.map Prod.fst).Nodup ∧
  (∀ e ∈ net.referrals, e.2.Nodup) ∧
  (∀ a b, NetEdge net a b ↔ findVal b net.referrers = some a) ∧
  AcyclicNet net

/-- The edges stored under adjacency keys outside `visited`: the decreasing
measure of the `canReach` depth-first search. -/
def edgesOutside (net : ReferralNetwork) (visited : List String) : ℕ :=
  (net.referrals.map (fun e =>
    if visited.contains e.1 then 0 else e.2.length)).sum

/-! ## Concrete instances used by counterexamples and witnesses -/

/-- The chain `a → b → c → d`. -/
def chainNet : ReferralNetwork :=
  runReferrals [("a", "b"), ("b", "c"), ("c", "d")]

/-- The chain network wrapped in a fresh `InfluencerAnalysis`. -/
def chainIA : InfluencerAnalysis := ⟨chainNet, [], []⟩

/-- Two one-leaf stars `z → x` and `a → y`, inserted in this order, wrapped
in a fresh `InfluencerAnalysis`: the two hubs tie on reach. -/
def zaIA : InfluencerAnalysis := ⟨runReferrals [("z", "x"), ("a", "y")], [], []⟩

/-- The path `a → b → c` inserted as `addReferral("b","c")` then
`addReferral("a","b")`, so user insertion order is `b, c, a` and the
connected unordered pairs `{b, a}` and `{c, a}` are enumerated against
the direction of their finite distance; wrapped in a fresh
`InfluencerAnalysis`. -/
def baIA : InfluencerAnalysis := ⟨runReferrals [("b", "c"), ("a", "b")], [], []⟩

/-- A constant adoption-probability function (monotone non-decreasing and
into `[0,1]`), used to exercise the bonus optimizer. -/
def adoptConst : ℚ → ℚ := fun _ => 1

/-- State after `addReferral("a","b")` on a fresh object. -/
def exIA1 : InfluencerAnalysis := (addReferralIA initIA "a" "b").2

/-- ... then `getReachSet("a")` (which caches `{b}`). -/
def exIA2 : InfluencerAnalysis := (getReachSet exIA1 "a").2

/-- ... then the accepted mutation `addReferral("b","c")`. -/
def exIA3 : InfluencerAnalysis := (addReferralIA exIA2 "b" "c").2

/-- The edge relation is decidable (membership in the adjacency list). -/
instance (net : ReferralNetwork) (a b : String) : Decidable (NetEdge net a b) := by
  unfold NetEdge
  exact inferInstance

deriving instance DecidableEq for Except

/-! ## Helper lemmas about the collection models -/

theorem findVal_append {β : Type} (k : String) (l1 l2 : List (String × β)) :
    findVal k (l1 ++ l2) = (findVal k l1).or (findVal k l2) := by
  induction l1 with
  | nil => simp [findVal]
  | cons e es ih => by_cases h : e.1 = k <;> simp [findVal, h, ih]

theorem findVal_eq_none {β : Type} (k : String) (l : List (String × β)) :
    findVal k l = none ↔ k ∉ l.map Prod.fst := by
  induction l with
  | nil => simp [findVal]
  | cons e es ih =>
    simp only [findVal, List.map_cons, List.mem_cons]
    by_cases h : e.1 = k
    · simp [h]
    · rw [if_neg h, ih]
      constructor
      · intro hk
        push_neg
        exact ⟨fun hke => h hke.symm, hk⟩
      · intro hk
        push_neg at hk
        exact hk.2

theorem findVal_map_update {β : Type} (k r : String) (f : β → β)
    (l : List (String × β)) :
    findVal k (l.map (fun e => if e.1 = r then (e.1, f e.2) else e)) =
      if k = r then (findVal k l).map f else findVal k l := by
  induction l with
  | nil => simp [findVal]
  | cons e es ih =>
    by_cases hkr : k = r
    · subst hkr
      by_cases hek : e.1 = k
      · simp [findVal, hek]
      · simp [findVal, hek, ih]
    · by_cases hek : e.1 = k
      · have her : ¬ e.1 = r := by rw [hek]; exact hkr
        simp [findVal, hek, her, hkr]
      · have hrk : ¬ r = k := fun hh => hkr hh.symm
        by_cases her : e.1 = r
        · simp [findVal, her, hek, ih, hkr, hrk]
        · simp [findVal, her, hek, ih, hkr, hrk]

theorem mem_setAdd {l : List String} {x y : String} :
    y ∈ setAdd l x ↔ y ∈ l ∨ y = x := by
  unfold setAdd
  split
  · rename_i h
    rw [List.elem_iff] at h
    constructor
    · exact Or.inl
    · rintro (hy | rfl)
      · exact hy
      · exact h
  · simp

theorem setAdd_nodup {l : List String} (h : l.Nodup) (x : String) :
    (setAdd l x).Nodup := by
  unfold setAdd
  split
  · exact h
  · rename_i hx
    rw [List.elem_iff] at hx
    simpa [List.nodup_append] using ⟨h, hx⟩

/-! ## C2: state of a rejected addReferral -/

theorem addUserCore_referrers (net : ReferralNetwork) (u : String) :
    (addUserCore net u).referrers = net.referrers := rfl

theorem adjOf_addUserCore (net : ReferralNetwork) (u a : String) :
    adjOf (addUserCore net u) a = adjOf net a := by
  unfold adjOf addUserCore
  simp only
  split
  · rfl
  · rename_i h
    rw [findVal_append]
    cases hfa : findVal a net.referrals with
    | some v => simp [Option.or]
    | none =>
      by_cases hau : u = a
      · subst hau; simp [Option.or, findVal]
      · simp [Option.or, findVal, hau]

theorem netEdge_addUserCore (net : ReferralNetwork) (u a b : String) :
    NetEdge (addUserCore net u) a b ↔ NetEdge net a b := by
  unfold NetEdge; rw [adjOf_addUserCore]

/-- C2: the claim states that every rejection leaves the entire state (user
set included) unchanged; but `addReferral` runs `addUser` on both
identifiers before the duplicate-referrer check, so a `DuplicateReferrer`
rejection with a fresh referrer id mutates the user set.  Concretely: after
`addReferral("a","b")`, the rejected call `addReferral("c","b")` changes
the state (it adds user `"c"`). -/
theorem C2_counterexample :
    (addReferral (addReferral emptyNetwork "a" "b").2 "c" "b").1 =
      AddResult.duplicateReferrer ∧
    (addReferral (addReferral emptyNetwork "a" "b").2 "c" "b").2 ≠
      (addReferral emptyNetwork "a" "b").2 ∧
    "c" ∈ (addReferral (addReferral emptyNetwork "a" "b").2 "c" "b").2.users ∧
    "c" ∉ (addReferral emptyNetwork "a" "b").2.users := by decide

/-- C2 (amended): every rejected `addReferral` leaves the reverse referrer
map and the edge relation exactly unchanged (no edge is recorded), and the
`InvalidIds` and `SelfReferral` rejections leave the whole state unchanged;
however `DuplicateReferrer` and `CycleDetected` rejections may leave the
two identifiers added to the user set and adjacency keys, because `addUser`
runs before those checks. -/
theorem C2_amended (net : ReferralNetwork) (r c : String)
    (h : (addReferral net r c).1 ≠ AddResult.ok) :
    (addReferral net r c).2.referrers = net.referrers ∧
    (∀ a b, NetEdge (addReferral net r c).2 a b ↔ NetEdge net a b) ∧
    ((addReferral net r c).1 = AddResult.invalidIds ∨
      (addReferral net r c).1 = AddResult.selfReferral →
      (addReferral net r c).2 = net) := by
  by_cases h1 : r = "" ∨ c = ""
  · simp [addReferral, h1]
  · push_neg at h1
    obtain ⟨h1a, h1b⟩ := h1
    by_cases h2 : r = c
    · simp [addReferral, h1a, h1b, h2]
    · by_cases h3 : (findVal c net.referrers).isSome
      · refine ⟨?_, ?_, ?_⟩
        · simp [addReferral, h1a, h1b, h2, addUserCore_referrers, h3]
        · intro a b
          simp only [addReferral, h1a, h1b, h2, addUserCore_referrers, h3]
          simp [addUserCore_referrers, h3, netEdge_addUserCore]
        · intro hor
          exfalso
          rcases hor with hh | hh <;>
            simp [addReferral, h1a, h1b, h2, addUserCore_referrers, h3] at hh
      · by_cases h4 : wouldCreateCycle (addUserCore (addUserCore net r) c) r c
        · refine ⟨?_, ?_, ?_⟩
          · simp [addReferral, h1a, h1b, h2, addUserCore_referrers, h3, h4]
          · intro a b
            simp only [addReferral, h1a, h1b, h2, addUserCore_referrers, h3, h4]
            simp [addUserCore_referrers, h3, h4, netEdge_addUserCore]
          · intro hor
            exfalso
            rcases hor with hh | hh <;>
              simp [addReferral, h1a, h1b, h2, addUserCore_referrers, h3, h4] at hh
        · exfalso
          exact h (by simp [addReferral, h1a, h1b, h2, addUserCore_referrers, h3, h4])

/-- C2 witness: the amended theorem applied to the concrete duplicate
rejection. -/
theorem C2_witness :
    (addReferral (addReferral emptyNetwork "a" "b").2 "c" "b").2.referrers =
      (addReferral emptyNetwork "a" "b").2.referrers :=
  (C2_amended (addReferral emptyNetwork "a" "b").2 "c" "b" (by decide)).1

/-! ## C3: the reach cache is not invalidated by accepted mutations -/

/-- C3: the claim (and the spec's correctness requirement) says the
memoized reach set is invalidated by every accepted mutation, so no stale
set is ever returned.  The code never touches `reachCache` in
`addReferral`: after caching `reachSet("a") = {b}`, the accepted mutation
`addReferral("b","c")` leaves the entry in place, and the next
`getReachSet("a")` returns the stale `{b}` even though `c` is now a
descendant of `a` (a fresh computation returns `{b, c}`). -/
theorem C3_stale_reachCache :
    (addReferralIA exIA2 "b" "c").1 = AddResult.ok ∧
    (getReachSet exIA3 "a").1 = ["b"] ∧
    "c" ∉ (getReachSet exIA3 "a").1 ∧
    NetEdge exIA3.net "a" "b" ∧ NetEdge exIA3.net "b" "c" ∧
    (getReachSet (clearCaches exIA3) "a").1 = ["b", "c"] := by decide

/-! ## C5: daysToTarget sentinels -/

/-- C5: the claim says `target ≤ 0` returns `0` and that exceeded ceilings
yield the sentinel rather than an exception.  The code checks `p ≤ 0`
before `target ≤ 0`, so `daysToTarget(0, 0)` returns the unreachable
sentinel instead of `0`; and for `p = 1/2000`, `target = 1000` the
binary-search path computes the initial bound `⌈1000/0.05⌉ + 100 = 20100`
days and `simulate` throws its days-range error instead of any sentinel
being returned. -/
theorem C5_daysToTarget_bug :
    daysToTarget 0 0 = Except.ok DtRes.unreachable ∧
    daysToTarget (1/2000) 1000 = Except.error SimErr.daysOutOfRange := by
  constructor
  · decide
  · have h1 : ¬ ((1:ℚ)/2000 ≤ 0) := by norm_num
    have h2 : ¬ ((1000:ℚ) ≤ 0) := by norm_num
    have h3 : ¬ ((1000:ℚ) < 1000) := by norm_num
    have h4 : ((⌈(1000:ℚ) / (INITIAL_REFERRERS * (1/2000))⌉ + 100).toNat) = 20100 := by
      norm_num [INITIAL_REFERRERS]
      decide
    have hsim : simulate ((1:ℚ)/2000) 20100 = Except.error SimErr.daysOutOfRange := by
      have hA : ¬ ((1:ℚ)/2000 < 0 ∨ 1 < (1:ℚ)/2000) := by
        push_neg
        norm_num
      rw [simulate, if_neg hA, if_pos (by decide : 10000 < 20100)]
    have h5 : growLoop (1/2000) 1000 40 20100 = Except.error SimErr.daysOutOfRange := by
      show growLoop (1/2000) 1000 (39+1) 20100 = _
      rw [growLoop, hsim]
      rfl
    simp only [daysToTarget, if_neg h1, if_neg h2, if_neg h3, binarySearchDays, h4, h5]
    rfl

/-! ## C9: simulate shape, monotone growth, zero probability -/

theorem simList_length (p : ℚ) :
    ∀ (d : ℕ) (a c : ℚ), (simList p d a c).length = d := by
  intro d
  induction d with
  | zero => intro a c; rfl
  | succ n ih => intro a c; simp [simList, ih]

theorem simList_chain (p : ℚ) (hp : 0 ≤ p) :
    ∀ (d : ℕ) (a c : ℚ), 0 ≤ a →
      List.Chain (· ≤ ·) c (simList p d a c) := by
  intro d
  induction d with
  | zero => intro a c _; exact List.Chain.nil
  | succ n ih =>
    intro a c ha
    simp only [simList]
    refine List.Chain.cons ?_ (ih _ _ (le_max_left 0 _))
    exact le_add_of_nonneg_right (mul_nonneg ha hp)

theorem simList_chain' (p : ℚ) (hp : 0 ≤ p) (d : ℕ) (a c : ℚ) :
    List.Chain' (· ≤ ·) (simList p d a c) := by
  cases d with
  | zero => simp [simList]
  | succ n =>
    simp only [simList]
    exact simList_chain p hp n _ _ (le_max_left 0 _)

theorem simList_zero : ∀ (d : ℕ) (a : ℚ), simList 0 d a 0 = List.replicate d 0 := by
  intro d
  induction d with
  | zero => intro a; rfl
  | succ n ih =>
    intro a
    simp only [simList, mul_zero, add_zero, List.replicate]
    exact List.cons_eq_cons.mpr ⟨rfl, ih _⟩

/-- C9: for `p ∈ [0,1]` and valid `days`, `simulate` succeeds and returns
exactly `days` cumulative totals forming a non-decreasing sequence, and
`simulate(0, N)` returns `N` zeros. -/
theorem C9_simulate (p : ℚ) (days : ℕ) (hp0 : 0 ≤ p) (hp1 : p ≤ 1)
    (hdays : days ≤ 10000) :
    simulate p days = Except.ok (simulateCore p days) ∧
    (simulateCore p days).length = days ∧
    List.Chain' (· ≤ ·) (simulateCore p days) ∧
    (p = 0 → simulateCore p days = List.replicate days 0) := by
  refine ⟨?_, simList_length p days _ _, simList_chain' p hp0 days _ _, ?_⟩
  · have hA : ¬ (p < 0 ∨ 1 < p) := by push_neg; exact ⟨hp0, hp1⟩
    have hB : ¬ (10000 < days) := by omega
    simp [simulate, hA, hB, simulateCore]
  · intro hp
    subst hp
    exact simList_zero days _

/-- C9 witness: the theorem applied at `p = 0`, `days = 3`. -/
theorem C9_witness :
    simulate 0 3 = Except.ok (simulateCore 0 3) ∧
    (simulateCore 0 3).length = 3 ∧
    List.Chain' (· ≤ ·) (simulateCore 0 3) ∧
    ((0 : ℚ) = 0 → simulateCore 0 3 = List.replicate 3 0) :=
  C9_simulate 0 3 (by norm_num) (by norm_num) (by norm_num)

/-! ## C10: getReachSet agrees with calculateReach on a cache miss -/

theorem bfsReachStep_fst (ns : List String) :
    ∀ q v r, (bfsReachStep ns (q, v, r)).1 = (bfsVisitStep ns (q, v)).1 ∧
      (bfsReachStep ns (q, v, r)).2.1 = (bfsVisitStep ns (q, v)).2 := by
  induction ns with
  | nil => intro q v r; exact ⟨rfl, rfl⟩
  | cons n ns ih =>
    intro q v r
    simp only [bfsReachStep, bfsVisitStep, List.foldl_cons]
    by_cases h : n ∈ v
    · simpa [bfsReachStep, bfsVisitStep, h] using ih q v r
    · simpa [bfsReachStep, bfsVisitStep, h] using ih (q ++ [n]) (v ++ [n]) (r ++ [n])

theorem bfsReachStep_sync (ns : List String) :
    ∀ (q v r : List String) (u : String), v = u :: r →
      (bfsReachStep ns (q, v, r)).2.1 = u :: (bfsReachStep ns (q, v, r)).2.2 := by
  induction ns with
  | nil => intro q v r u h; exact h
  | cons n ns ih =>
    intro q v r u h
    simp only [bfsReachStep, List.foldl_cons]
    by_cases hn : n ∈ v
    · simpa [bfsReachStep, hn] using ih q v r u h
    · have h' : v ++ [n] = u :: (r ++ [n]) := by rw [h]; rfl
      simpa [bfsReachStep, hn] using ih (q ++ [n]) (v ++ [n]) (r ++ [n]) u h'

theorem calcLoop_reachLoop (net : ReferralNetwork) (u : String) :
    ∀ (fuel : ℕ) (q v r : List String), v = u :: r →
      calcLoop net fuel q v = u :: reachLoop net fuel q v r := by
  intro fuel
  induction fuel with
  | zero => intro q v r h; cases q <;> simpa [calcLoop, reachLoop] using h
  | succ n ih =>
    intro q v r h
    cases q with
    | nil => simpa [calcLoop, reachLoop] using h
    | cons current rest =>
      simp only [calcLoop, reachLoop]
      obtain ⟨hq, hv⟩ := bfsReachStep_fst (adjOf net current) rest v r
      have hsync := bfsReachStep_sync (adjOf net current) rest v r u h
      rw [← hq, ← hv]
      exact ih _ _ _ hsync

/-- C10: whenever the reach cache holds no entry for `u`, the set returned
by `getReachSet(u)` has exactly `calculateReach(u)` elements: the cached
reach-set path and the uncached BFS counting path compute the same
descendant set. -/
theorem C10_reach_agreement (ia : InfluencerAnalysis) (u : String)
    (h : findVal u ia.reachCache = none) :
    ((getReachSet ia u).1).length = calculateReach ia.net u := by
  unfold getReachSet calculateReach
  rw [h]
  by_cases hu : u ∈ ia.net.users
  · simp only [hu, if_pos, List.elem_iff]
    rw [calcLoop_reachLoop ia.net u (1 + totalAdjLen ia.net) [u] [u] [] rfl]
    simp
  · simp [hu]

/-- C10 witness: the theorem applied to the chain network with an empty
cache. -/
theorem C10_witness :
    ((getReachSet chainIA "a").1).length = calculateReach chainIA.net "a" :=
  C10_reach_agreement chainIA "a" rfl

/-! ## C4: minBonusForTarget -/

theorem simList_forall2 (p q : ℚ) (hp0 : 0 ≤ p) (hpq : p ≤ q) (hq1 : q ≤ 1) :
    ∀ (d : ℕ) (a1 a2 c1 c2 : ℚ), 0 ≤ a1 → a1 ≤ a2 → c1 ≤ c2 →
      List.Forall₂ (· ≤ ·) (simList p d a1 c1) (simList q d a2 c2) := by
  intro d
  induction d with
  | zero => intro a1 a2 c1 c2 _ _ _; exact List.Forall₂.nil
  | succ n ih =>
    intro a1 a2 c1 c2 ha1 ha12 hc
    have hq0 : 0 ≤ q := le_trans hp0 hpq
    have ha2 : 0 ≤ a2 := le_trans ha1 ha12
    have hmul : a1 * p ≤ a2 * q := mul_le_mul ha12 hpq hp0 ha2
    have h10 : MAX_REFERRALS_PER_USER = (10 : ℚ) := rfl
    have hmin1 : min a1 (a1 * p / MAX_REFERRALS_PER_USER) =
        a1 * p / MAX_REFERRALS_PER_USER := by
      rw [h10, min_eq_right]
      rw [div_le_iff₀ (by norm_num : (0 : ℚ) < 10)]
      nlinarith [mul_nonneg ha1 (by linarith : (0 : ℚ) ≤ 10 - p)]
    have hmin2 : min a2 (a2 * q / MAX_REFERRALS_PER_USER) =
        a2 * q / MAX_REFERRALS_PER_USER := by
      rw [h10, min_eq_right]
      rw [div_le_iff₀ (by norm_num : (0 : ℚ) < 10)]
      nlinarith [mul_nonneg ha2 (by linarith : (0 : ℚ) ≤ 10 - q)]
    simp only [simList]
    rw [hmin1, hmin2]
    refine List.Forall₂.cons (by linarith) ?_
    refine ih _ _ _ _ (le_max_left 0 _) ?_ (by linarith)
    refine max_le_max le_rfl ?_
    rw [h10]
    linarith

theorem forall2_getLastD {l1 l2 : List ℚ} (h : List.Forall₂ (· ≤ ·) l1 l2) :
    ∀ {d1 d2 : ℚ}, d1 ≤ d2 → l1.getLastD d1 ≤ l2.getLastD d2 := by
  induction h with
  | nil => intro d1 d2 hd; exact hd
  | cons hxy t ih =>
    intro d1 d2 _
    rw [List.getLastD_cons, List.getLastD_cons]
    exact ih hxy

theorem finalHires_mono (days : ℕ) (p q : ℚ) (hp0 : 0 ≤ p) (hpq : p ≤ q)
    (hq1 : q ≤ 1) : finalHires p days ≤ finalHires q days := by
  unfold finalHires simulateCore
  refine forall2_getLastD ?_ le_rfl
  exact simList_forall2 p q hp0 hpq hq1 days _ _ _ _
    (by norm_num [INITIAL_REFERRERS]) le_rfl le_rfl

theorem except_bind_ok {α β γ : Type} (a : α) (f : α → Except γ β) :
    (Except.ok a >>= f : Except γ β) = f a := rfl

theorem except_bind_error {α β γ : Type} (e : γ) (f : α → Except γ β) :
    ((Except.error e : Except γ α) >>= f : Except γ β) = Except.error e := rfl

theorem bonusLoop_ok_some (f : ℚ → ℚ) (target : ℚ) (days : ℕ) (eps : ℚ) :
    ∀ (fuel : ℕ) (low high : ℚ) (best : Option ℚ) (B : ℚ),
      (∀ b0, best = some b0 →
        ∃ l, simulate (f b0) days = Except.ok l ∧ target ≤ l.getLastD 0) →
      bonusLoop f target days eps fuel low high best = Except.ok (some B) →
      ∃ l, simulate (f B) days = Except.ok l ∧ target ≤ l.getLastD 0 := by
  intro fuel
  induction fuel with
  | zero =>
    intro low high best B hinv hres
    simp only [bonusLoop, Except.ok.injEq] at hres
    exact hinv B hres
  | succ n ih =>
    intro low high best B hinv hres
    simp only [bonusLoop] at hres
    by_cases hcond : eps < high - low
    · rw [if_pos hcond] at hres
      cases hsim : simulate (f ((low + high) / 2)) days with
      | error e =>
        rw [hsim, except_bind_error] at hres
        exact Except.noConfusion hres
      | ok l =>
        rw [hsim] at hres
        simp only [except_bind_ok] at hres
        by_cases hc : target ≤ l.getLastD 0
        · rw [if_pos hc] at hres
          refine ih _ _ _ _ ?_ hres
          intro b0 hb0
          rw [Option.some.injEq] at hb0
          subst hb0
          exact ⟨l, hsim, hc⟩
        · rw [if_neg hc] at hres
          exact ih _ _ _ _ hinv hres
    · rw [if_neg hcond] at hres
      simp only [Except.ok.injEq] at hres
      exact hinv B hres

/-- C4 (amended): whenever `minBonusForTarget(days, target, adoptionProb,
eps)` returns a bonus `B` (it may also return `null`, even for achievable
targets), `B` is the best midpoint found rounded up to a multiple of $10,
and — for a monotone `adoptionProb` into `[0,1]` — re-running the
simulation at `adoptionProb(B)` meets or exceeds the target.  No tightness
guarantee holds for `B - 10`. -/
theorem C4_amended (days : ℕ) (target : ℚ) (f : ℚ → ℚ) (eps : ℚ) (B : ℚ)
    (hmono : ∀ x y, x ≤ y → f x ≤ f y)
    (hrange : ∀ b, 0 ≤ f b ∧ f b ≤ 1)
    (hres : minBonusForTarget days target f eps = Except.ok (some B)) :
    (∃ m : ℤ, B = (m : ℚ) * 10) ∧ target ≤ finalHires (f B) days := by
  by_cases h0 : days = 0 ∨ target ≤ 0
  · rw [minBonusForTarget, if_pos h0] at hres
    exact absurd hres (by simp)
  · rw [minBonusForTarget, if_neg h0] at hres
    cases hfm : findMaxSearchBonus f target days with
    | error e =>
      rw [hfm, except_bind_error] at hres
      exact Except.noConfusion hres
    | ok mb =>
      rw [hfm] at hres
      simp only [except_bind_ok] at hres
      cases mb with
      | none => simp at hres
      | some maxB =>
        dsimp only at hres
        cases hbl : bonusLoop f target days eps (bonusFuel maxB eps) 0 maxB none with
        | error e =>
          rw [hbl, except_bind_error] at hres
          exact Except.noConfusion hres
        | ok ob =>
          rw [hbl] at hres
          simp only [except_bind_ok] at hres
          cases ob with
          | none => simp at hres
          | some best =>
            dsimp only at hres
            simp only [Except.ok.injEq, Option.some.injEq] at hres
            obtain ⟨l, hsiml, htarget⟩ :=
              bonusLoop_ok_some f target days eps _ 0 maxB none best
                (by intro b0 hb0; exact absurd hb0 (by simp)) hbl
            have hB : B = (⌈best / 10⌉ : ℚ) * 10 := hres.symm
            have hle : best ≤ B := by
              rw [hB]
              have hceil : best / 10 ≤ (⌈best / 10⌉ : ℚ) := Int.le_ceil _
              have := mul_le_mul_of_nonneg_right hceil
                (by norm_num : (0 : ℚ) ≤ 10)
              calc best = best / 10 * 10 := by ring
                _ ≤ (⌈best / 10⌉ : ℚ) * 10 := this
            have hfh : finalHires (f best) days = l.getLastD 0 := by
              unfold simulate at hsiml
              split at hsiml
              · exact absurd hsiml (by simp)
              · split at hsiml
                · exact absurd hsiml (by simp)
                · unfold finalHires
                  rw [Except.ok.injEq] at hsiml
                  rw [hsiml]
            have hmono2 := finalHires_mono days (f best) (f B)
              (hrange best).1 (hmono _ _ hle) (hrange B).2
            refine ⟨⟨⌈best / 10⌉, hB⟩, ?_⟩
            calc target ≤ l.getLastD 0 := htarget
              _ = finalHires (f best) days := hfh.symm
              _ ≤ finalHires (f B) days := hmono2

theorem simulateCore_one_one : simulateCore 1 1 = [100] := by
  show simList 1 (0 + 1) INITIAL_REFERRERS 0 = [100]
  rw [simList]
  norm_num [INITIAL_REFERRERS, simList]

theorem simulate_one_one : simulate 1 1 = Except.ok [100] := by
  rw [simulate, if_neg (by norm_num), if_neg (by norm_num), simulateCore_one_one]

theorem finalHires_one_one : finalHires 1 1 = 100 := by
  rw [finalHires, simulateCore_one_one]
  rfl

theorem findMax_const_eval :
    findMaxSearchBonus adoptConst 50 1 = Except.ok (some 10) := by
  rw [findMaxSearchBonus]
  show findMaxLoop adoptConst 50 1 (19 + 1) 10 = _
  simp only [findMaxLoop]
  rw [show adoptConst 10 = 1 from rfl]
  rw [if_pos (by norm_num : (99 : ℚ) / 100 ≤ 1), simulate_one_one, except_bind_ok]
  rw [if_pos]
  show (50 : ℚ) ≤ 100
  norm_num

theorem bonusLoop_const_eval :
    bonusLoop adoptConst 50 1 8 3 0 10 none = Except.ok (some 5) := by
  show bonusLoop adoptConst 50 1 8 (2 + 1) 0 10 none = _
  simp only [bonusLoop]
  rw [if_pos (by norm_num : (8 : ℚ) < 10 - 0)]
  rw [show adoptConst ((0 + 10) / 2) = 1 from rfl, simulate_one_one, except_bind_ok]
  rw [if_pos (show (50 : ℚ) ≤ ([100] : List ℚ).getLastD 0 by norm_num [List.getLastD])]
  rw [show ((0 : ℚ) + 10) / 2 = 5 by norm_num]
  show bonusLoop adoptConst 50 1 8 (1 + 1) 0 5 (some 5) = _
  simp only [bonusLoop]
  rw [if_neg (by norm_num : ¬ (8 : ℚ) < 5 - 0)]

theorem minBonus_const_eval :
    minBonusForTarget 1 50 adoptConst 8 = Except.ok (some 10) := by
  rw [minBonusForTarget, if_neg (by norm_num : ¬ ((1 : ℕ) = 0 ∨ (50 : ℚ) ≤ 0))]
  rw [findMax_const_eval, except_bind_ok]
  dsimp only
  rw [show bonusFuel 10 8 = 3 by
    rw [bonusFuel, show (⌈(10 : ℚ) / 8⌉ : ℤ) = 2 by
      rw [Int.ceil_eq_iff] <;> norm_num]
    rfl]
  rw [bonusLoop_const_eval, except_bind_ok]
  dsimp only
  rw [show (⌈(5 : ℚ) / 10⌉ : ℤ) = 1 by
    rw [Int.ceil_eq_iff] <;> norm_num]
  norm_num

/-- C4: the claim's tightness part fails.  With the constant adoption
function `adoptConst = 1` (monotone, into `[0,1]`, target achievable),
`minBonusForTarget(1, 50, adoptConst, 8)` returns $10, yet the bonus
reduced by the $10 rounding increment (that is, $0) still meets the
target: the simulation at probability `adoptConst(0) = 1` yields 100 ≥ 50
hires. -/
theorem C4_counterexample :
    minBonusForTarget 1 50 adoptConst 8 = Except.ok (some 10) ∧
    (50 : ℚ) ≤ finalHires (adoptConst (10 - 10)) 1 := by
  refine ⟨minBonus_const_eval, ?_⟩
  rw [show adoptConst (10 - 10) = 1 from rfl, finalHires_one_one]
  norm_num

/-- C4 witness: the amended theorem applied to the constant adoption
function at a concrete input. -/
theorem C4_witness :
    (∃ m : ℤ, (10 : ℚ) = (m : ℚ) * 10) ∧
    (50 : ℚ) ≤ finalHires (adoptConst 10) 1 :=
  C4_amended 1 50 adoptConst 8 10 (fun _ _ _ => le_refl 1)
    (fun _ => ⟨by norm_num [adoptConst], by norm_num [adoptConst]⟩)
    minBonus_const_eval

/-! ## C8: getTopReferrersByReach -/

theorem mem_insertByDesc {α : Type} (key : α → ℕ) (x z : α) :
    ∀ l, z ∈ insertByDesc key x l ↔ z = x ∨ z ∈ l := by
  intro l
  induction l with
  | nil => simp [insertByDesc]
  | cons y ys ih =>
    simp only [insertByDesc]
    split
    · simp [List.mem_cons]
    · simp only [List.mem_cons, ih]
      tauto

theorem insertByDesc_perm {α : Type} (key : α → ℕ) (x : α) :
    ∀ l, List.Perm (insertByDesc key x l) (x :: l) := by
  intro l
  induction l with
  | nil => simp [insertByDesc]
  | cons y ys ih =>
    simp only [insertByDesc]
    split
    · exact List.Perm.refl _
    · exact (List.Perm.cons y ih).trans (List.Perm.swap x y ys)

theorem sortByDesc_perm {α : Type} (key : α → ℕ) :
    ∀ l, List.Perm (sortByDesc key l) l := by
  intro l
  induction l with
  | nil => exact List.Perm.refl _
  | cons x xs ih =>
    exact (insertByDesc_perm key x (sortByDesc key xs)).trans (List.Perm.cons x ih)

theorem insertByDesc_pairwise {α : Type} (key : α → ℕ) (x : α) :
    ∀ l, List.Pairwise (fun a b => key b ≤ key a) l →
      List.Pairwise (fun a b => key b ≤ key a) (insertByDesc key x l) := by
  intro l
  induction l with
  | nil => intro _; simp [insertByDesc]
  | cons y ys ih =>
    intro hp
    rw [List.pairwise_cons] at hp
    obtain ⟨hy, hys⟩ := hp
    simp only [insertByDesc]
    split
    · rename_i hxy
      rw [List.pairwise_cons]
      refine ⟨?_, List.pairwise_cons.mpr ⟨hy, hys⟩⟩
      intro z hz
      rcases List.mem_cons.mp hz with rfl | hz'
      · exact hxy
      · exact le_trans (hy z hz') hxy
    · rename_i hxy
      push_neg at hxy
      rw [List.pairwise_cons]
      refine ⟨?_, ih hys⟩
      intro z hz
      rcases (mem_insertByDesc key x z ys).mp hz with rfl | hz'
      · exact le_of_lt hxy
      · exact hy z hz'

theorem sortByDesc_pairwise {α : Type} (key : α → ℕ) :
    ∀ l, List.Pairwise (fun a b => key b ≤ key a) (sortByDesc key l) := by
  intro l
  induction l with
  | nil => simp [sortByDesc]
  | cons x xs ih => exact insertByDesc_pairwise key x _ ih

theorem insertByDesc_filter {α : Type} (key : α → ℕ) (x : α) (n : ℕ) :
    ∀ l, List.Pairwise (fun a b => key b ≤ key a) l →
      (insertByDesc key x l).filter (fun a => key a == n) =
      ((x :: l).filter (fun a => key a == n)) := by
  intro l
  induction l with
  | nil => intro _; rfl
  | cons y ys ih =>
    intro hp
    rw [List.pairwise_cons] at hp
    obtain ⟨hy, hys⟩ := hp
    simp only [insertByDesc]
    split
    · rfl
    · rename_i hxy
      push_neg at hxy
      by_cases hyn : key y = n
      · have hxn : ¬ (key x == n) = true := by
          simp only [beq_iff_eq]
          omega
        simp only [List.filter_cons]
        rw [ih hys]
        simp only [List.filter_cons]
        simp [hyn, hxn]
      · simp only [List.filter_cons]
        rw [ih hys]
        simp only [List.filter_cons]
        simp [hyn]

theorem sortByDesc_filter {α : Type} (key : α → ℕ) (n : ℕ) :
    ∀ l, (sortByDesc key l).filter (fun a => key a == n) =
      l.filter (fun a => key a == n) := by
  intro l
  induction l with
  | nil => rfl
  | cons x xs ih =>
    have h1 := insertByDesc_filter key x n (sortByDesc key xs)
      (sortByDesc_pairwise key xs)
    simp only [sortByDesc, h1, List.filter_cons]
    rw [ih]

theorem foldl_append_ite {α β : Type} (c : α → Prop) [DecidablePred c]
    (g : α → β) :
    ∀ (l : List α) (acc : List β),
      l.foldl (fun acc x => if c x then acc ++ [g x] else acc) acc =
      acc ++ (l.filter (fun x => decide (c x))).map g := by
  intro l
  induction l with
  | nil => intro acc; simp
  | cons x xs ih =>
    intro acc
    simp only [List.foldl_cons, List.filter_cons]
    by_cases hx : c x
    · rw [if_pos hx, ih]
      simp [hx]
    · rw [if_neg hx, ih]
      simp [hx]

theorem topPairs_eq (net : ReferralNetwork) :
    topPairs net = (net.users.filter
        (fun u => decide (0 < calculateReach net u))).map
      (fun u => (u, calculateReach net u)) := by
  unfold topPairs
  exact foldl_append_ite _ _ net.users []

/-- C8 (amended): `getTopReferrersByReach(k)` slices, via JavaScript
`slice(0, k)` semantics, the stable descending sort of the positive-reach
pairs: every returned entry has positive reach equal to `calculateReach`;
the result is sorted by reach descending; `k = 0` gives the empty list
(but a negative `k` drops `-k` trailing entries rather than giving the
empty list); for `0 ≤ k` the result has `min k count` entries; and for `k`
at least the candidate count the result is exactly the candidate pairs,
with ties left in user-insertion order (stable sort), not ascending
identifier order. -/
theorem C8_amended (net : ReferralNetwork) (k : ℤ) :
    (∀ e ∈ getTopReferrersByReach net k,
      0 < e.2 ∧ e.2 = calculateReach net e.1) ∧
    List.Pairwise (fun a b => b.2 ≤ a.2) (getTopReferrersByReach net k) ∧
    (k = 0 → getTopReferrersByReach net k = []) ∧
    (0 ≤ k → (getTopReferrersByReach net k).length =
      min k.toNat (topPairs net).length) ∧
    ((topPairs net).length ≤ k →
      List.Perm (getTopReferrersByReach net k) (topPairs net)) ∧
    ((topPairs net).length ≤ k → ∀ n : ℕ,
      (getTopReferrersByReach net k).filter (fun e => e.2 == n) =
      (topPairs net).filter (fun e => e.2 == n)) := by
  have hslice : ∀ m : ℕ, jsSlice0 (sortByDesc Prod.snd (topPairs net)) k =
      (sortByDesc Prod.snd (topPairs net)).take m →
      True := fun _ _ => trivial
  have hper := sortByDesc_perm Prod.snd (topPairs net)
  have hpw := sortByDesc_pairwise Prod.snd (topPairs net)
  have hlen : (sortByDesc Prod.snd (topPairs net)).length =
      (topPairs net).length := hper.length_eq
  have htake : ∃ m : ℕ, getTopReferrersByReach net k =
      (sortByDesc Prod.snd (topPairs net)).take m := by
    unfold getTopReferrersByReach jsSlice0
    split
    · exact ⟨_, rfl⟩
    · exact ⟨_, rfl⟩
  obtain ⟨m, hm⟩ := htake
  refine ⟨?_, ?_, ?_, ?_, ?_, ?_⟩
  · intro e he
    rw [hm] at he
    have he2 : e ∈ topPairs net := hper.mem_iff.mp (List.mem_of_mem_take he)
    rw [topPairs_eq] at he2
    obtain ⟨u, hu, rfl⟩ := List.mem_map.mp he2
    have := List.of_mem_filter hu
    simp only [decide_eq_true_eq] at this
    exact ⟨this, rfl⟩
  · rw [hm]
    exact hpw.sublist (List.take_sublist m _)
  · intro hk
    subst hk
    unfold getTopReferrersByReach jsSlice0
    simp
  · intro hk
    unfold getTopReferrersByReach jsSlice0
    rw [if_neg (by omega : ¬ k < 0)]
    rw [List.length_take, hlen]
  · intro hk
    have hk0 : ¬ k < 0 := by
      have h0 : (0 : ℤ) ≤ (topPairs net).length := Int.ofNat_nonneg _
      omega
    have hkN : (sortByDesc Prod.snd (topPairs net)).length ≤ k.toNat := by
      rw [hlen]
      omega
    unfold getTopReferrersByReach jsSlice0
    rw [if_neg hk0, List.take_of_length_le hkN]
    exact hper
  · intro hk n
    have hk0 : ¬ k < 0 := by
      have h0 : (0 : ℤ) ≤ (topPairs net).length := Int.ofNat_nonneg _
      omega
    have hkN : (sortByDesc Prod.snd (topPairs net)).length ≤ k.toNat := by
      rw [hlen]
      omega
    unfold getTopReferrersByReach jsSlice0
    rw [if_neg hk0, List.take_of_length_le hkN]
    exact sortByDesc_filter Prod.snd n (topPairs net)

/-- C8: the claim says `k ≤ 0` always returns the empty list and ties are
broken by ascending identifier.  On the chain `a→b→c→d`,
`getTopReferrersByReach(-1)` returns two entries (JavaScript
`slice(0, -1)` drops only the last), not the empty list; and on the
two-star network inserted as `z` then `a`, the tied hubs come back in
insertion order `[z, a]`, not ascending order `[a, z]`. -/
theorem C8_counterexample :
    getTopReferrersByReach chainNet (-1) = [("a", 3), ("b", 2)] ∧
    getTopReferrersByReach chainNet (-1) ≠ [] ∧
    getTopReferrersByReach zaIA.net 2 = [("z", 1), ("a", 1)] ∧
    "a" < "z" := by
  refine ⟨by decide, by decide, by decide, ?_⟩
  exact compare_gt_iff_gt.mp rfl

/-- C8 witness: the amended theorem applied at `k = 0` on the chain. -/
theorem C8_witness : getTopReferrersByReach chainNet 0 = [] :=
  (C8_amended chainNet 0).2.2.1 rfl

/-! ## C6: calculateFlowCentrality -/

theorem foldl_bumpScore (incs : List String) :
    ∀ m : List (String × ℕ),
      incs.foldl bumpScore m = m.map (fun e => (e.1, e.2 + incs.count e.1)) := by
  induction incs with
  | nil =>
    intro m
    simp [List.count_nil]
  | cons i is ih =>
    intro m
    simp only [List.foldl_cons, ih, bumpScore, List.map_map]
    refine List.map_congr_left ?_
    intro e _
    simp only [Function.comp]
    by_cases hei : e.1 = i
    · rw [if_pos hei]
      simp only [List.count_cons]
      rw [show (i == e.1) = true by simp [hei]]
      simp
      omega
    · rw [if_neg hei]
      simp only [List.count_cons]
      rw [show (i == e.1) = false by simp [Ne.symm hei]]
      simp

theorem foldl_bump_ite (c : String → Bool) :
    ∀ (l : List String) (m : List (String × ℕ)),
      l.foldl (fun m v => if c v then bumpScore m v else m) m =
      (l.filter c).foldl bumpScore m := by
  intro l
  induction l with
  | nil => intro m; rfl
  | cons v vs ih =>
    intro m
    simp only [List.foldl_cons, List.filter_cons]
    by_cases hv : c v
    · rw [if_pos hv, hv, ih]
      rfl
    · rw [if_neg hv, ih, show c v = false by simpa using hv]
      simp

theorem foldl_incs_flatMap {γ : Type} (h : γ → List String) :
    ∀ (l : List γ) (m : List (String × ℕ)),
      l.foldl (fun m st => (h st).foldl bumpScore m) m =
      (l.flatMap h).foldl bumpScore m := by
  intro l
  induction l with
  | nil => intro m; rfl
  | cons x xs ih =>
    intro m
    simp only [List.foldl_cons, List.flatMap_cons, List.foldl_append, ih]

theorem sum_ite_countP {γ : Type} (P : γ → Bool) (c : ℕ) :
    ∀ l : List γ, (l.map (fun x => if P x then c else 0)).sum = l.countP P * c := by
  intro l
  induction l with
  | nil => simp
  | cons x xs ih =>
    simp only [List.map_cons, List.sum_cons, ih, List.countP_cons]
    by_cases hx : P x
    · simp [hx, Nat.add_mul, Nat.add_comm]
    · simp [hx]

theorem flowScores_spec (users : List String)
    (dists : List (String × List (String × ℕ))) (hnd : users.Nodup) :
    flowScores users dists =
      users.map (fun u => (u, flowScoreSpec users dists u)) := by
  unfold flowScores
  have hF : (fun (m : List (String × ℕ)) (st : String × String) =>
      match distOf dists st.1 st.2 with
      | none => m
      | some dd => users.foldl (fun m v =>
          if v = st.1 ∨ v = st.2 then m
          else if brokerHit dists st.1 st.2 v dd then bumpScore m v else m) m) =
      (fun m st =>
        (match distOf dists st.1 st.2 with
          | none => ([] : List String)
          | some dd => users.filter (fun v =>
              !(v == st.1 || v == st.2) && brokerHit dists st.1 st.2 v dd)).foldl
          bumpScore m) := by
    funext m st
    cases hdd : distOf dists st.1 st.2 with
    | none => rfl
    | some dd =>
      simp only
      have hfun : (fun (m : List (String × ℕ)) v =>
          if v = st.1 ∨ v = st.2 then m
          else if brokerHit dists st.1 st.2 v dd then bumpScore m v else m) =
          (fun m v =>
            if (!(v == st.1 || v == st.2) && brokerHit dists st.1 st.2 v dd)
            then bumpScore m v else m) := by
        funext m v
        by_cases h1 : v = st.1 ∨ v = st.2
        · have hb : (v == st.1 || v == st.2) = true := by
            rcases h1 with h | h <;> simp [h]
          simp [h1, hb]
        · have hb : (v == st.1 || v == st.2) = false := by
            push_neg at h1
            simp [h1.1, h1.2]
          simp [h1, hb]
      rw [hfun, foldl_bump_ite]
  rw [hF]
  rw [foldl_incs_flatMap]
  rw [foldl_bumpScore, List.map_map]
  refine List.map_congr_left ?_
  intro u hu
  simp only [Function.comp]
  congr 1
  rw [List.count_flatMap]
  have hper : ∀ st : String × String,
      (List.count u ∘ fun st =>
        (match distOf dists st.1 st.2 with
          | none => ([] : List String)
          | some dd => users.filter (fun v =>
              !(v == st.1 || v == st.2) && brokerHit dists st.1 st.2 v dd))) st =
      if (match distOf dists st.1 st.2 with
          | some dd => !(u == st.1 || u == st.2) && brokerHit dists st.1 st.2 u dd
          | none => false) then users.count u else 0 := by
    intro st
    simp only [Function.comp]
    cases hdd : distOf dists st.1 st.2 with
    | none => rfl
    | some dd =>
      simp only
      by_cases hp : (!(u == st.1 || u == st.2) && brokerHit dists st.1 st.2 u dd) = true
      · rw [if_pos hp]
        exact List.count_filter
          (p := fun v => !(v == st.1 || v == st.2) && brokerHit dists st.1 st.2 v dd) hp
      · rw [if_neg hp]
        refine List.count_eq_zero.mpr ?_
        intro hmem
        exact hp (List.of_mem_filter
          (p := fun v => !(v == st.1 || v == st.2) && brokerHit dists st.1 st.2 v dd) hmem)
  rw [List.map_congr_left (fun st _ => hper st)]
  rw [sum_ite_countP]
  rw [List.count_eq_one_of_mem hnd hu]
  rw [Nat.mul_one, Nat.zero_add]
  rfl

theorem flowRanked_spec (users : List String)
    (dists : List (String × List (String × ℕ))) (hnd : users.Nodup) :
    flowRanked users dists =
      (users.map (fun u => BrokerRec.mk u (flowScoreSpec users dists u)
        (if 2 < users.length then
          (flowScoreSpec users dists u : ℚ) /
            (((users.length : ℚ) - 1) * ((users.length : ℚ) - 2))
         else 0))).filter (fun b => 0 < b.centralityScore) := by
  unfold flowRanked
  rw [flowScores_spec users dists hnd, List.map_map]
  rfl

/-- C6 (amended): with a fresh distance cache, `calculateFlowCentrality(topK)`
returns exactly the `slice(0, topK)` of the stable descending sort (by
score) of the records of users with a positive score, where each user's
score counts only the **ordered** pairs `(s, t)` taken in user-insertion
orientation **whose forward distance `dist(s, t)` is defined** — not, as
the claim states, every unordered pair with a finite hop distance in
either orientation — for which the user is distinct from both ends and
`dist(s,v) + dist(v,t) = dist(s,t)`; the normalized score divides by
`(V-1)(V-2)` when `V > 2` (else 0), and the returned list is sorted by
score descending with every entry's positive score equal to that count. -/
theorem C6_amended (ia : InfluencerAnalysis) (k : ℤ)
    (hc : ia.distanceCache = []) (hnd : ia.net.users.Nodup) :
    (calculateFlowCentrality ia k).1 =
      jsSlice0 (sortByDesc BrokerRec.centralityScore
        ((ia.net.users.map (fun u => BrokerRec.mk u
            (flowScoreSpec ia.net.users (allPairsDistances ia.net) u)
            (if 2 < ia.net.users.length then
              (flowScoreSpec ia.net.users (allPairsDistances ia.net) u : ℚ) /
                (((ia.net.users.length : ℚ) - 1) *
                  ((ia.net.users.length : ℚ) - 2))
             else 0))).filter (fun b => 0 < b.centralityScore))) k ∧
    List.Pairwise (fun a b => b.centralityScore ≤ a.centralityScore)
      (calculateFlowCentrality ia k).1 ∧
    (∀ b ∈ (calculateFlowCentrality ia k).1,
      0 < b.centralityScore ∧
      b.centralityScore =
        flowScoreSpec ia.net.users (allPairsDistances ia.net) b.userId) := by
  have hcd : computeAllPairsDistances ia =
      (allPairsDistances ia.net, { ia with distanceCache := allPairsDistances ia.net }) := by
    rw [computeAllPairsDistances, hc]
    rfl
  have hmain : (calculateFlowCentrality ia k).1 =
      jsSlice0 (sortByDesc BrokerRec.centralityScore
        (flowRanked ia.net.users (allPairsDistances ia.net))) k := by
    rw [calculateFlowCentrality, hcd]
  have hr := flowRanked_spec ia.net.users (allPairsDistances ia.net) hnd
  refine ⟨by rw [hmain, hr], ?_, ?_⟩
  · rw [hmain]
    have htake : ∃ m : ℕ,
        jsSlice0 (sortByDesc BrokerRec.centralityScore
          (flowRanked ia.net.users (allPairsDistances ia.net))) k =
        (sortByDesc BrokerRec.centralityScore
          (flowRanked ia.net.users (allPairsDistances ia.net))).take m := by
      unfold jsSlice0
      split
      · exact ⟨_, rfl⟩
      · exact ⟨_, rfl⟩
    obtain ⟨m, hm⟩ := htake
    rw [hm]
    exact (sortByDesc_pairwise BrokerRec.centralityScore _).sublist
      (List.take_sublist m _)
  · intro b hb
    rw [hmain] at hb
    have htake : ∃ m : ℕ,
        jsSlice0 (sortByDesc BrokerRec.centralityScore
          (flowRanked ia.net.users (allPairsDistances ia.net))) k =
        (sortByDesc BrokerRec.centralityScore
          (flowRanked ia.net.users (allPairsDistances ia.net))).take m := by
      unfold jsSlice0
      split
      · exact ⟨_, rfl⟩
      · exact ⟨_, rfl⟩
    obtain ⟨m, hm⟩ := htake
    rw [hm] at hb
    have hb2 := (sortByDesc_perm BrokerRec.centralityScore _).mem_iff.mp
      (List.mem_of_mem_take hb)
    rw [hr] at hb2
    have hbpos := List.of_mem_filter hb2
    obtain ⟨u, _, rfl⟩ := List.mem_map.mp (List.mem_of_mem_filter hb2)
    exact ⟨by simpa using hbpos, rfl⟩

/-- C6 witness: the amended theorem applied to the chain network with
topK 10. -/
theorem C6_witness :
    List.Pairwise (fun a b => b.centralityScore ≤ a.centralityScore)
      (calculateFlowCentrality chainIA 10).1 :=
  (C6_amended chainIA 10 rfl (by decide)).2.1

/-- C6: the claim's pair quantifier is wrong.  The claim scores brokers
over every **unordered** pair with a finite hop distance between them, but
the code only tries each pair in user-insertion orientation and skips it
when that forward distance is undefined.  On the path `a → b → c` inserted
as `("b","c")` then `("a","b")` (insertion order `b, c, a`), the connected
pair `{a, c}` is enumerated as `(c, a)` with `dist(c → a)` undefined
and is skipped: the code scores `b` zero and returns an empty ranking,
while the claim's counting rule scores `b` one (`dist(a,b) + dist(b,c) =
dist(a,c) = 2`). -/
theorem C6_counterexample :
    (calculateFlowCentrality baIA 10).1 = [] ∧
    flowScoreSpec baIA.net.users (allPairsDistances baIA.net) "b" = 0 ∧
    flowScoreClaim baIA.net.users (allPairsDistances baIA.net) "b" = 1 := by
  decide

/-! ## C7: calculateUniqueReachExpansion -/

theorem findBest_spec (rs : List (String × List String)) (global : List String) :
    ∀ (l : List String) (best : Option (String × List String)) (bestN : ℕ),
      (findBest rs global l best bestN = (best, bestN) ∧
        ∀ q ∈ l, (marginalList rs global q).length ≤ bestN) ∨
      (∃ r pre post, l = pre ++ r :: post ∧
        findBest rs global l best bestN =
          (some (r, marginalList rs global r),
            (marginalList rs global r).length) ∧
        bestN < (marginalList rs global r).length ∧
        (∀ q ∈ pre,
          (marginalList rs global q).length <
            (marginalList rs global r).length) ∧
        (∀ q ∈ post,
          (marginalList rs global q).length ≤
            (marginalList rs global r).length)) := by
  intro l
  induction l with
  | nil => intro best bestN; exact Or.inl ⟨rfl, by simp⟩
  | cons x xs ih =>
    intro best bestN
    by_cases hx : bestN < (marginalList rs global x).length
    · have hstep : findBest rs global (x :: xs) best bestN =
          findBest rs global xs (some (x, marginalList rs global x))
            (marginalList rs global x).length := by
        simp only [findBest]
        rw [if_pos hx]
      rcases ih (some (x, marginalList rs global x))
          (marginalList rs global x).length with
        ⟨hres, hall⟩ | ⟨r, pre, post, hsplit, hres, hlt, hpre, hpost⟩
      · refine Or.inr ⟨x, [], xs, by simp, ?_, hx, by simp, ?_⟩
        · rw [hstep, hres]
        · intro q hq; exact hall q hq
      · refine Or.inr ⟨r, x :: pre, post, by rw [hsplit]; rfl, ?_,
          lt_trans hx hlt, ?_, hpost⟩
        · rw [hstep, hres]
        · intro q hq
          rcases List.mem_cons.mp hq with rfl | hq'
          · exact hlt
          · exact hpre q hq'
    · have hstep : findBest rs global (x :: xs) best bestN =
          findBest rs global xs best bestN := by
        simp only [findBest]
        rw [if_neg hx]
      rcases ih best bestN with
        ⟨hres, hall⟩ | ⟨r, pre, post, hsplit, hres, hlt, hpre, hpost⟩
      · refine Or.inl ⟨by rw [hstep, hres], ?_⟩
        intro q hq
        rcases List.mem_cons.mp hq with rfl | hq'
        · omega
        · exact hall q hq'
      · refine Or.inr ⟨r, x :: pre, post, by rw [hsplit]; rfl,
          by rw [hstep, hres], hlt, ?_, hpost⟩
        intro q hq
        rcases List.mem_cons.mp hq with rfl | hq'
        · omega
        · exact hpre q hq'

theorem greedyLoop_spec (rs : List (String × List String)) :
    ∀ (fuel : ℕ) (active global : List String) (sels : List Selection),
      ∃ S G, greedyLoop rs fuel active global sels = (sels ++ S, G) ∧
        GreedySel rs fuel active global S G := by
  intro fuel
  induction fuel with
  | zero =>
    intro active global sels
    exact ⟨[], global, by simp [greedyLoop], GreedySel.stopFuel active global⟩
  | succ n ih =>
    intro active global sels
    by_cases hae : active.isEmpty
    · have hnil : active = [] := by simpa [List.isEmpty_iff] using hae
      subst hnil
      exact ⟨[], global, by simp [greedyLoop], GreedySel.stopEmpty n global⟩
    · have hane : active ≠ [] := by simpa [List.isEmpty_iff] using hae
      rcases findBest_spec rs global active none 0 with
        ⟨hres, hall⟩ | ⟨r, pre, post, hsplit, hres, _, hpre, hpost⟩
      · refine ⟨[], global, ?_, GreedySel.stopZero n active global hane ?_⟩
        · rw [greedyLoop, if_neg hae, hres]
          simp
        · intro q hq
          have := hall q hq
          exact List.length_eq_zero.mp (by omega)
      · obtain ⟨S, G, hrec, hgs⟩ := ih (active.erase r)
          ((marginalList rs global r).foldl setAdd global)
          (sels ++ [⟨r, (marginalList rs global r).length,
            ((findVal r rs).getD []).length, marginalList rs global r⟩])
        refine ⟨⟨r, (marginalList rs global r).length,
          ((findVal r rs).getD []).length, marginalList rs global r⟩ :: S, G,
          ?_, ?_⟩
        · rw [greedyLoop, if_neg hae, hres]
          dsimp only
          rw [hrec]
          simp
        · refine GreedySel.pick n active global r pre post S G hsplit ?_ ?_ hpre hgs
          · intro hnil
            rw [hsplit] at hres
            have h0 : 0 < (marginalList rs global r).length := by
              rcases findBest_spec rs global (pre ++ r :: post) none 0 with
                ⟨hres2, hall2⟩ | ⟨r2, pre2, post2, _, hres2, hlt2, _, _⟩
              · rw [hres2] at hres
                exact absurd hres (by simp)
              · rw [hres2] at hres
                rw [Prod.mk.injEq, Option.some.injEq] at hres
                obtain ⟨⟨h1, _⟩, h2⟩ := hres
                omega
            rw [hnil] at h0
            simp at h0
          · intro q hq
            rw [hsplit] at hq
            rcases List.mem_append.mp hq with hq' | hq'
            · exact le_of_lt (hpre q hq')
            · rcases List.mem_cons.mp hq' with rfl | hq''
              · exact le_refl _
              · exact hpost q hq''

theorem findVal_mem {β : Type} (k : String) (v : β) :
    ∀ l, findVal k l = some v → (k, v) ∈ l := by
  intro l
  induction l with
  | nil => intro h; exact absurd h (by simp [findVal])
  | cons e es ih =>
    intro h
    rw [findVal] at h
    split at h
    · rename_i he
      rw [Option.some.injEq] at h
      subst h
      subst he
      exact List.mem_cons_self _ _
    · exact List.mem_cons_of_mem e (ih h)

theorem reachSetsOf_pos (ia : InfluencerAnalysis) :
    ∀ r ∈ (reachSetsOf ia).1.2,
      0 < ((findVal r (reachSetsOf ia).1.1).getD []).length := by
  have main : ∀ (us : List String)
      (acc : (List (String × List String) × List String) × InfluencerAnalysis),
      (∀ e ∈ acc.1.1, 0 < e.2.length) →
      (∀ r ∈ acc.1.2, (findVal r acc.1.1).isSome) →
      (∀ e ∈ (us.foldl
          (fun acc u =>
            let su := getReachSet acc.2 u
            if 0 < su.1.length then
              ((acc.1.1 ++ [(u, su.1)], acc.1.2 ++ [u]), su.2)
            else (acc.1, su.2)) acc).1.1, 0 < e.2.length) ∧
        (∀ r ∈ (us.foldl
          (fun acc u =>
            let su := getReachSet acc.2 u
            if 0 < su.1.length then
              ((acc.1.1 ++ [(u, su.1)], acc.1.2 ++ [u]), su.2)
            else (acc.1, su.2)) acc).1.2,
          (findVal r (us.foldl
            (fun acc u =>
              let su := getReachSet acc.2 u
              if 0 < su.1.length then
                ((acc.1.1 ++ [(u, su.1)], acc.1.2 ++ [u]), su.2)
              else (acc.1, su.2)) acc).1.1).isSome) := by
    intro us
    induction us with
    | nil => intro acc h1 h2; exact ⟨h1, h2⟩
    | cons u us ih =>
      intro acc h1 h2
      simp only [List.foldl_cons]
      by_cases hu : 0 < (getReachSet acc.2 u).1.length
      · rw [if_pos hu]
        refine ih _ ?_ ?_
        · intro e he
          rcases List.mem_append.mp he with he' | he'
          · exact h1 e he'
          · rcases List.mem_singleton.mp he' with rfl
            exact hu
        · intro r hr
          rw [findVal_append]
          rcases List.mem_append.mp hr with hr' | hr'
          · have := h2 r hr'
            cases hfv : findVal r acc.1.1 with
            | none => rw [hfv] at this; exact absurd this (by simp)
            | some s => simp [Option.or]
          · rcases List.mem_singleton.mp hr' with rfl
            cases hfv : findVal r acc.1.1 with
            | none => simp [Option.or, findVal]
            | some s => simp [Option.or]
      · rw [if_neg hu]
        exact ih _ h1 h2
  have hrs : (reachSetsOf ia) = ia.net.users.foldl
      (fun acc u =>
        let su := getReachSet acc.2 u
        if 0 < su.1.length then
          ((acc.1.1 ++ [(u, su.1)], acc.1.2 ++ [u]), su.2)
        else (acc.1, su.2)) (([], []), ia) := rfl
  have hmm := main ia.net.users (([], []), ia) (by simp) (by simp)
  rw [← hrs] at hmm
  intro r hr
  have h2 := hmm.2 r hr
  cases hfv : findVal r (reachSetsOf ia).1.1 with
  | none =>
    rw [hfv] at h2
    exact absurd h2 (by simp)
  | some s =>
    have hmem := findVal_mem r s _ hfv
    have hpos := hmm.1 (r, s) hmem
    simpa using hpos

/-- C7 (amended): `calculateUniqueReachExpansion(maxSelections)` performs
the greedy maximum-coverage selection described by `GreedySel`: up to
`maxSelections` rounds over the active referrers (exactly the users with a
nonzero reach set), each round picking a referrer whose marginal
contribution is maximal and positive — ties broken by **first position in
the active list (user insertion order)**, not ascending identifier —
stopping early when the best marginal contribution is zero, and reporting
`totalUniqueCoverage` as the size of the final covered set and
`efficiency` as coverage divided by the number of selections (0 if none). -/
theorem C7_amended (ia : InfluencerAnalysis) (maxReferrers : ℕ) :
    ∃ G, GreedySel (reachSetsOf ia).1.1 maxReferrers (reachSetsOf ia).1.2 []
        (calculateUniqueReachExpansion ia maxReferrers).1.selectedReferrers G ∧
      (calculateUniqueReachExpansion ia maxReferrers).1.totalUniqueCoverage =
        G.length ∧
      (calculateUniqueReachExpansion ia maxReferrers).1.efficiency =
        (if (calculateUniqueReachExpansion ia
              maxReferrers).1.selectedReferrers = []
         then 0
         else (G.length : ℚ) /
          (calculateUniqueReachExpansion
            ia maxReferrers).1.selectedReferrers.length) ∧
      (∀ r ∈ (reachSetsOf ia).1.2,
        0 < ((findVal r (reachSetsOf ia).1.1).getD []).length) := by
  obtain ⟨S, G, hloop, hgs⟩ := greedyLoop_spec (reachSetsOf ia).1.1 maxReferrers
    (reachSetsOf ia).1.2 [] []
  have hres : (calculateUniqueReachExpansion ia maxReferrers).1 =
      ⟨S, G.length, if 0 < S.length then (G.length : ℚ) / S.length else 0⟩ := by
    unfold calculateUniqueReachExpansion
    simp only []
    rw [hloop]
    simp
  refine ⟨G, ?_, ?_, ?_, reachSetsOf_pos ia⟩
  · rw [hres]
    exact hgs
  · rw [hres]
  · rw [hres]
    cases S with
    | nil => simp
    | cons s ss => simp

/-- C7: the claim's tie-break is wrong.  On two one-leaf stars inserted as
`z` then `a`, both hubs have marginal contribution 1 at the first step
(a tie), and the code selects `"z"` first — the first maximizer in user
insertion order — whereas ascending-identifier order would select `"a"`
(`"a" < "z"`). -/
theorem C7_counterexample :
    (calculateUniqueReachExpansion zaIA 10).1.selectedReferrers.map
      Selection.userId = ["z", "a"] ∧
    marginalList (reachSetsOf zaIA).1.1 [] "z" = ["x"] ∧
    marginalList (reachSetsOf zaIA).1.1 [] "a" = ["y"] ∧
    "a" < "z" := by
  refine ⟨by decide, by decide, by decide, ?_⟩
  exact compare_gt_iff_gt.mp rfl

/-! ## C1: structural invariants of the graph store -/

theorem rtg_insert {E : String → String → Prop} {r c : String} :
    ∀ {a b : String},
      Relation.ReflTransGen (fun x y => E x y ∨ (x = r ∧ y = c)) a b →
      Relation.ReflTransGen E a b ∨
        (Relation.ReflTransGen E a r ∧ Relation.ReflTransGen E c b) := by
  intro a b h
  refine Relation.ReflTransGen.head_induction_on h ?_ ?_
  · exact Or.inl Relation.ReflTransGen.refl
  · intro x y hstep htail ih
    rcases hstep with hE | ⟨rfl, rfl⟩
    · rcases ih with h1 | ⟨h1, h2⟩
      · exact Or.inl (Relation.ReflTransGen.head hE h1)
      · exact Or.inr ⟨Relation.ReflTransGen.head hE h1, h2⟩
    · rcases ih with h1 | ⟨h1, h2⟩
      · exact Or.inr ⟨Relation.ReflTransGen.refl, h1⟩
      · exact Or.inr ⟨Relation.ReflTransGen.refl, h2⟩

theorem acyclic_insert {E : String → String → Prop} {r c : String}
    (hac : ∀ x, ¬ Relation.TransGen E x x)
    (hnr : ¬ Relation.ReflTransGen E c r) :
    ∀ x, ¬ Relation.TransGen (fun a b => E a b ∨ (a = r ∧ b = c)) x x := by
  intro x hcyc
  obtain ⟨y, hxy, hyx⟩ := Relation.TransGen.head'_iff.mp hcyc
  rcases hxy with hE | ⟨rfl, rfl⟩
  · rcases rtg_insert hyx with h1 | ⟨h1, h2⟩
    · exact hac x (Relation.TransGen.head' hE h1)
    · exact hnr (h2.trans (Relation.ReflTransGen.head hE h1))
  · rcases rtg_insert hyx with h1 | ⟨h1, h2⟩
    · exact hnr h1
    · exact hnr h2

theorem edgesOutside_nil (net : ReferralNetwork) :
    edgesOutside net [] = totalAdjLen net := by
  unfold edgesOutside totalAdjLen
  congr 1

theorem sum_map_le_of_pointwise {α : Type} (f g : α → ℕ)
    (l : List α) (h : ∀ x ∈ l, f x ≤ g x) :
    (l.map f).sum ≤ (l.map g).sum := by
  induction l with
  | nil => simp
  | cons x xs ih =>
    simp only [List.map_cons, List.sum_cons]
    have h1 := h x (List.mem_cons_self x xs)
    have h2 := ih (fun y hy => h y (List.mem_cons_of_mem x hy))
    omega

theorem ite_contains_cons_le (x : String) (vis : List String)
    (e : String × List String) :
    (if (x :: vis).contains e.1 then 0 else e.2.length) ≤
      (if vis.contains e.1 then 0 else e.2.length) := by
  by_cases hv : e.1 ∈ vis
  · have h1 : vis.contains e.1 = true := List.elem_iff.mpr hv
    have h2 : (x :: vis).contains e.1 = true :=
      List.elem_iff.mpr (List.mem_cons_of_mem x hv)
    rw [h1, h2]
  · have h1 : vis.contains e.1 = false := by simpa [List.elem_iff] using hv
    rw [h1]
    by_cases hx : e.1 = x
    · have h2 : (x :: vis).contains e.1 = true :=
        List.elem_iff.mpr (by simp [hx])
      rw [h2]
      simp
    · have h2 : (x :: vis).contains e.1 = false := by
        simp [List.elem_iff, List.mem_cons, hx, hv]
      rw [h2]

theorem edgesOutside_cons_le (net : ReferralNetwork) (x : String)
    (vis : List String) :
    edgesOutside net (x :: vis) ≤ edgesOutside net vis := by
  unfold edgesOutside
  exact sum_map_le_of_pointwise _ _ _
    (fun e _ => ite_contains_cons_le x vis e)

theorem edgesOutside_pop (net : ReferralNetwork) (current : String)
    (vis : List String) (hcv : current ∉ vis) :
    (adjOf net current).length + edgesOutside net (current :: vis) ≤
      edgesOutside net vis := by
  unfold edgesOutside adjOf
  have main : ∀ l : List (String × List String),
      ((findVal current l).getD []).length +
        (l.map (fun e =>
          if (current :: vis).contains e.1 then 0 else e.2.length)).sum ≤
      (l.map (fun e => if vis.contains e.1 then 0 else e.2.length)).sum := by
    intro l
    induction l with
    | nil => simp [findVal]
    | cons e es ih =>
      simp only [findVal, List.map_cons, List.sum_cons]
      by_cases hec : e.1 = current
      · rw [if_pos hec]
        have h1 : ((current :: vis).contains e.1) = true := by
          rw [List.elem_iff, hec]
          exact List.mem_cons_self current vis
        have h2 : (vis.contains e.1) = false := by
          rw [hec]
          simpa [List.elem_iff] using hcv
        rw [h1, h2, if_pos rfl, if_neg Bool.false_ne_true, Option.getD_some]
        have hmono := sum_map_le_of_pointwise
          (fun e => if (current :: vis).contains e.1 then 0 else e.2.length)
          (fun e => if vis.contains e.1 then 0 else e.2.length)
          es (fun f _ => ite_contains_cons_le current vis f)
        omega
      · rw [if_neg hec]
        have h3 : ((current :: vis).contains e.1) = (vis.contains e.1) := by
          rw [List.contains_cons, beq_eq_false_iff_ne.mpr hec, Bool.false_or]
        rw [h3]
        omega
  exact main net.referrals

theorem canReachLoop_isSome (net : ReferralNetwork) (toUser : String) :
    ∀ (fuel : ℕ) (stack visited : List String),
      stack.length + edgesOutside net visited ≤ fuel →
      (canReachLoop net toUser fuel stack visited).isSome := by
  intro fuel
  induction fuel with
  | zero =>
    intro stack visited h
    cases stack with
    | nil => simp [canReachLoop]
    | cons a rest => simp at h
  | succ n ih =>
    intro stack visited h
    cases stack with
    | nil => simp [canReachLoop]
    | cons current rest =>
      rw [canReachLoop]
      by_cases hv : visited.contains current
      · rw [if_pos hv]
        refine ih rest visited ?_
        simp only [List.length_cons] at h
        omega
      · rw [if_neg hv]
        by_cases hadj : (adjOf net current).contains toUser
        · rw [if_pos hadj]
          simp
        · rw [if_neg hadj]
          refine ih _ _ ?_
          have hcv : current ∉ visited := by
            simpa [List.elem_iff] using hv
          have hE := edgesOutside_pop net current visited hcv
          simp only [List.length_append, List.length_reverse,
            List.length_cons] at h ⊢
          omega

theorem closed_no_reach (net : ReferralNetwork) (toUser : String)
    (visited : List String)
    (htv : toUser ∉ visited)
    (hcl : ∀ x ∈ visited, ∀ n ∈ adjOf net x, n ∈ visited) :
    ∀ a ∈ visited, ¬ Relation.ReflTransGen (NetEdge net) a toUser := by
  intro a ha hpath
  have main : ∀ x, Relation.ReflTransGen (NetEdge net) x toUser →
      x ∈ visited → False := by
    intro x hx
    refine Relation.ReflTransGen.head_induction_on hx ?_ ?_
    · intro hmem
      exact htv hmem
    · intro u v hstep _ ih hu
      exact ih (hcl u hu v hstep)
  exact main a hpath ha

theorem canReachLoop_complete (net : ReferralNetwork) (toUser : String) :
    ∀ (fuel : ℕ) (stack visited : List String),
      toUser ∉ visited →
      toUser ∉ stack →
      (∀ x ∈ visited, (adjOf net x).contains toUser = false ∧
        ∀ n ∈ adjOf net x, n ∈ visited ∨ n ∈ stack) →
      canReachLoop net toUser fuel stack visited = some false →
      ∀ a, (a ∈ visited ∨ a ∈ stack) →
        ¬ Relation.ReflTransGen (NetEdge net) a toUser := by
  intro fuel
  induction fuel with
  | zero =>
    intro stack visited htv hts hinv hres a ha
    cases stack with
    | nil =>
      have hcl : ∀ x ∈ visited, ∀ n ∈ adjOf net x, n ∈ visited := by
        intro x hx n hn
        rcases (hinv x hx).2 n hn with h | h
        · exact h
        · exact absurd h (List.not_mem_nil n)
      rcases ha with ha | ha
      · exact closed_no_reach net toUser visited htv hcl a ha
      · exact absurd ha (List.not_mem_nil a)
    | cons c rest => exact absurd hres (by simp [canReachLoop])
  | succ n ih =>
    intro stack visited htv hts hinv hres a ha
    cases stack with
    | nil =>
      have hcl : ∀ x ∈ visited, ∀ n ∈ adjOf net x, n ∈ visited := by
        intro x hx n hn
        rcases (hinv x hx).2 n hn with h | h
        · exact h
        · exact absurd h (List.not_mem_nil n)
      rcases ha with ha | ha
      · exact closed_no_reach net toUser visited htv hcl a ha
      · exact absurd ha (List.not_mem_nil a)
    | cons current rest =>
      rw [canReachLoop] at hres
      have htc : toUser ≠ current := fun h =>
        hts (h ▸ List.mem_cons_self current rest)
      have htr : toUser ∉ rest := fun h =>
        hts (List.mem_cons_of_mem current h)
      by_cases hv : current ∈ visited
      · rw [if_pos (List.elem_iff.mpr hv)] at hres
        have hinv' : ∀ x ∈ visited, (adjOf net x).contains toUser = false ∧
            ∀ m ∈ adjOf net x, m ∈ visited ∨ m ∈ rest := by
          intro x hx
          refine ⟨(hinv x hx).1, ?_⟩
          intro m hm
          rcases (hinv x hx).2 m hm with h | h
          · exact Or.inl h
          · rcases List.mem_cons.mp h with h | h
            · exact Or.inl (h ▸ hv)
            · exact Or.inr h
        refine ih rest visited htv htr hinv' hres a ?_
        rcases ha with ha | ha
        · exact Or.inl ha
        · rcases List.mem_cons.mp ha with h | h
          · exact Or.inl (h ▸ hv)
          · exact Or.inr h
      · rw [if_neg (fun h => hv (List.elem_iff.mp h))] at hres
        by_cases hadj : toUser ∈ adjOf net current
        · rw [if_pos (List.elem_iff.mpr hadj)] at hres
          exact absurd hres (by simp)
        · have hadjF : (adjOf net current).contains toUser = false := by
            simpa [List.elem_iff] using hadj
          rw [if_neg (fun hc => hadj (List.elem_iff.mp hc))] at hres
          have htv' : toUser ∉ current :: visited := by
            intro h
            rcases List.mem_cons.mp h with h | h
            · exact htc h
            · exact htv h
          have hts' : toUser ∉ (adjOf net current).reverse ++ rest := by
            intro h
            rcases List.mem_append.mp h with h | h
            · exact hadj (List.mem_reverse.mp h)
            · exact htr h
          have hinv' : ∀ x ∈ current :: visited,
              (adjOf net x).contains toUser = false ∧
              ∀ m ∈ adjOf net x,
                m ∈ current :: visited ∨
                  m ∈ (adjOf net current).reverse ++ rest := by
            intro x hx
            rcases List.mem_cons.mp hx with rfl | hx
            · refine ⟨hadjF, ?_⟩
              intro m hm
              exact Or.inr (List.mem_append.mpr
                (Or.inl (List.mem_reverse.mpr hm)))
            · refine ⟨(hinv x hx).1, ?_⟩
              intro m hm
              rcases (hinv x hx).2 m hm with h | h
              · exact Or.inl (List.mem_cons_of_mem current h)
              · rcases List.mem_cons.mp h with h | h
                · exact Or.inl (h ▸ List.mem_cons_self current visited)
                · exact Or.inr (List.mem_append.mpr (Or.inr h))
          refine ih _ _ htv' hts' hinv' hres a ?_
          rcases ha with ha | ha
          · exact Or.inl (List.mem_cons_of_mem current ha)
          · rcases List.mem_cons.mp ha with h | h
            · exact Or.inl (h ▸ List.mem_cons_self current visited)
            · exact Or.inr (List.mem_append.mpr (Or.inr h))

theorem canReach_false (net : ReferralNetwork) (fromUser toUser : String)
    (h : canReach net fromUser toUser = false) :
    ¬ Reaches net fromUser toUser := by
  unfold canReach at h
  by_cases heq : fromUser = toUser
  · rw [if_pos heq] at h
    exact absurd h (by simp)
  · rw [if_neg heq] at h
    have hsome := canReachLoop_isSome net toUser (1 + totalAdjLen net)
      [fromUser] [] (by rw [edgesOutside_nil]; simp)
    obtain ⟨b, hb⟩ := Option.isSome_iff_exists.mp hsome
    rw [hb] at h
    simp only [Option.getD_some] at h
    subst h
    exact canReachLoop_complete net toUser (1 + totalAdjLen net)
      [fromUser] [] (List.not_mem_nil toUser)
      (by simpa using fun hh => heq hh.symm)
      (by intro x hx; exact absurd hx (List.not_mem_nil x))
      hb fromUser (Or.inr (List.mem_cons_self fromUser []))

theorem addUserCore_referrals (net : ReferralNetwork) (u : String) :
    (addUserCore net u).referrals =
      if (findVal u net.referrals).isSome then net.referrals
      else net.referrals ++ [(u, [])] := rfl

theorem findVal_addUserCore_self (net : ReferralNetwork) (u : String) :
    (findVal u (addUserCore net u).referrals).isSome := by
  rw [addUserCore_referrals]
  by_cases hs : (findVal u net.referrals).isSome
  · rw [if_pos hs]; exact hs
  · rw [if_neg hs, findVal_append,
      Option.not_isSome_iff_eq_none.mp hs]
    simp [findVal, Option.or]

theorem findVal_addUserCore_mono (net : ReferralNetwork) (u k : String)
    (h : (findVal k net.referrals).isSome) :
    (findVal k (addUserCore net u).referrals).isSome := by
  rw [addUserCore_referrals]
  by_cases hs : (findVal u net.referrals).isSome
  · rw [if_pos hs]; exact h
  · rw [if_neg hs, findVal_append]
    obtain ⟨v, hv⟩ := Option.isSome_iff_exists.mp h
    rw [hv]
    simp [Option.or]

theorem findVal_map_const {β : Type} (k c : String) (v : β) :
    ∀ m : List (String × β),
      findVal k (m.map (fun e => if e.1 = c then (e.1, v) else e)) =
        if k = c then (findVal k m).map (fun _ => v) else findVal k m := by
  intro m
  induction m with
  | nil => simp [findVal]
  | cons e es ih =>
    by_cases hkc : k = c
    · subst hkc
      by_cases hek : e.1 = k
      · simp [findVal, hek]
      · simp [findVal, hek, ih]
    · by_cases hek : e.1 = k
      · have hec : ¬ e.1 = c := by rw [hek]; exact hkc
        simp [findVal, hek, hec, hkc]
      · have hck : ¬ c = k := fun h => hkc h.symm
        by_cases hec : e.1 = c
        · simp [findVal, hec, hek, ih, hkc, hck]
        · simp [findVal, hec, hek, ih, hkc, hck]

theorem findVal_mapSet {β : Type} (c : String) (v : β) (k : String)
    (m : List (String × β)) :
    findVal k (mapSet m c v) = if k = c then some v else findVal k m := by
  unfold mapSet
  by_cases hs : (findVal c m).isSome
  · rw [if_pos hs, findVal_map_const]
    by_cases hkc : k = c
    · subst hkc
      obtain ⟨s, hsv⟩ := Option.isSome_iff_exists.mp hs
      simp [hsv]
    · simp [hkc]
  · rw [if_neg hs, findVal_append]
    by_cases hkc : k = c
    · subst hkc
      rw [Option.not_isSome_iff_eq_none.mp hs]
      simp [findVal, Option.or]
    · have hck : ¬ c = k := fun h => hkc h.symm
      rw [if_neg hkc]
      cases hkm : findVal k m with
      | none => simp [findVal, hck, Option.or]
      | some w => simp [Option.or]

theorem netInv_addUserCore (net : ReferralNetwork) (u : String)
    (hinv : NetInv net) : NetInv (addUserCore net u) := by
  obtain ⟨hkeys, hents, hedge, hac⟩ := hinv
  refine ⟨?_, ?_, ?_, ?_⟩
  · rw [addUserCore_referrals]
    by_cases hs : (findVal u net.referrals).isSome
    · rw [if_pos hs]; exact hkeys
    · rw [if_neg hs]
      have hu : u ∉ net.referrals.map Prod.fst :=
        (findVal_eq_none u net.referrals).mp
          (Option.not_isSome_iff_eq_none.mp hs)
      rw [List.map_append]
      rw [List.nodup_append]
      refine ⟨hkeys, by simp, ?_⟩
      intro x hx hx1
      simp only [List.map_cons, List.map_nil, List.mem_singleton] at hx1
      exact hu (hx1 ▸ hx)
  · rw [addUserCore_referrals]
    by_cases hs : (findVal u net.referrals).isSome
    · rw [if_pos hs]; exact hents
    · rw [if_neg hs]
      intro e he
      rcases List.mem_append.mp he with h | h
      · exact hents e h
      · simp only [List.mem_singleton] at h
        subst h
        simp
  · intro a b
    rw [netEdge_addUserCore, addUserCore_referrers]
    exact hedge a b
  · intro x hcyc
    exact hac x (hcyc.mono (fun a b h => (netEdge_addUserCore net u a b).mp h))

theorem netEdge_update (net1 : ReferralNetwork) (r c : String)
    (hk : (findVal r net1.referrals).isSome) (a b : String) :
    NetEdge { net1 with
        referrals := net1.referrals.map (fun e =>
          if e.1 = r then (e.1, setAdd e.2 c) else e)
        referrers := mapSet net1.referrers c r } a b ↔
      (NetEdge net1 a b ∨ (a = r ∧ b = c)) := by
  unfold NetEdge adjOf
  simp only
  rw [findVal_map_update a r (fun s => setAdd s c) net1.referrals]
  by_cases har : a = r
  · subst har
    rw [if_pos rfl]
    obtain ⟨s, hs⟩ := Option.isSome_iff_exists.mp hk
    rw [hs]
    simp [mem_setAdd]
  · rw [if_neg har]
    simp [har]

theorem netInv_update (net1 : ReferralNetwork) (r c : String)
    (hinv : NetInv net1)
    (hk : (findVal r net1.referrals).isSome)
    (hdup : findVal c net1.referrers = none)
    (hnr : ¬ Relation.ReflTransGen (NetEdge net1) c r) :
    NetInv { net1 with
      referrals := net1.referrals.map (fun e =>
        if e.1 = r then (e.1, setAdd e.2 c) else e)
      referrers := mapSet net1.referrers c r } := by
  obtain ⟨hkeys, hents, hedge, hac⟩ := hinv
  refine ⟨?_, ?_, ?_, ?_⟩
  · simp only [List.map_map]
    have hsame : net1.referrals.map
        (Prod.fst ∘ fun e => if e.1 = r then (e.1, setAdd e.2 c) else e) =
        net1.referrals.map Prod.fst := by
      refine List.map_congr_left ?_
      intro e _
      by_cases h : e.1 = r <;> simp [h]
    rw [hsame]
    exact hkeys
  · intro e' he'
    simp only [List.mem_map] at he'
    obtain ⟨e, he, rfl⟩ := he'
    by_cases h : e.1 = r
    · rw [if_pos h]
      exact setAdd_nodup (hents e he) c
    · rw [if_neg h]
      exact hents e he
  · intro a b
    rw [netEdge_update net1 r c hk a b]
    simp only [findVal_mapSet]
    by_cases hbc : b = c
    · subst hbc
      rw [if_pos rfl]
      have hnb : ¬ NetEdge net1 a b := by
        intro hE
        rw [(hedge a b).mp hE] at hdup
        exact absurd hdup (by simp)
      constructor
      · rintro (hE | ⟨rfl, _⟩)
        · exact absurd hE hnb
        · rfl
      · intro h
        exact Or.inr ⟨(Option.some.inj h).symm, rfl⟩
    · rw [if_neg hbc]
      constructor
      · rintro (hE | ⟨_, rfl⟩)
        · exact (hedge a b).mp hE
        · exact absurd rfl hbc
      · intro h
        exact Or.inl ((hedge a b).mpr h)
  · intro x hcyc
    have hcyc' : Relation.TransGen
        (fun a b => NetEdge net1 a b ∨ (a = r ∧ b = c)) x x :=
      hcyc.mono (fun a b h => (netEdge_update net1 r c hk a b).mp h)
    exact acyclic_insert hac hnr x hcyc'

theorem netInv_addReferral (net : ReferralNetwork) (r c : String)
    (hinv : NetInv net) : NetInv (addReferral net r c).2 := by
  by_cases h1 : r = "" ∨ c = ""
  · simp only [addReferral, if_pos h1]
    exact hinv
  · simp only [addReferral, if_neg h1]
    by_cases h2 : r = c
    · rw [if_pos h2]
      exact hinv
    · rw [if_neg h2]
      have hinv1 : NetInv (addUserCore (addUserCore net r) c) :=
        netInv_addUserCore _ c (netInv_addUserCore net r hinv)
      by_cases h3 : (findVal c (addUserCore (addUserCore net r) c).referrers).isSome
      · rw [if_pos h3]
        exact hinv1
      · rw [if_neg h3]
        by_cases h4 : wouldCreateCycle (addUserCore (addUserCore net r) c) r c
        · rw [if_pos h4]
          exact hinv1
        · rw [if_neg h4]
          have hk : (findVal r (addUserCore (addUserCore net r) c).referrals).isSome :=
            findVal_addUserCore_mono _ c r (findVal_addUserCore_self net r)
          have hdup : findVal c (addUserCore (addUserCore net r) c).referrers = none :=
            Option.not_isSome_iff_eq_none.mp h3
          have hnr : ¬ Relation.ReflTransGen
              (NetEdge (addUserCore (addUserCore net r) c)) c r := by
            have hcr : canReach (addUserCore (addUserCore net r) c) c r = false := by
              unfold wouldCreateCycle at h4
              simpa using h4
            exact canReach_false _ c r hcr
          exact netInv_update _ r c hinv1 hk hdup hnr

theorem findVal_of_mem_nodup {β : Type} :
    ∀ l : List (String × β), (l.map Prod.fst).Nodup →
      ∀ e ∈ l, findVal e.1 l = some e.2 := by
  intro l
  induction l with
  | nil =>
    intro _ e he
    exact absurd he (List.not_mem_nil e)
  | cons f fs ih =>
    intro hnd e he
    simp only [List.map_cons, List.nodup_cons] at hnd
    rcases List.mem_cons.mp he with rfl | he2
    · simp [findVal]
    · rw [findVal]
      have hne : ¬ f.1 = e.1 := by
        intro hfe
        exact hnd.1 (by rw [hfe]; exact List.mem_map.mpr ⟨e, he2, rfl⟩)
      rw [if_neg hne]
      exact ih hnd.2 e he2

theorem sum_count_le_one (c a : String) :
    ∀ l : List (String × List String),
      (l.map Prod.fst).Nodup →
      (∀ e ∈ l, e.2.count c ≤ 1) →
      (∀ e ∈ l, 0 < e.2.count c → e.1 = a) →
      (l.map (fun e => e.2.count c)).sum ≤ 1 := by
  intro l
  induction l with
  | nil => simp
  | cons e es ih =>
    intro hnd hle hkey
    simp only [List.map_cons, List.nodup_cons] at hnd
    simp only [List.map_cons, List.sum_cons]
    by_cases hz : e.2.count c = 0
    · rw [hz, Nat.zero_add]
      exact ih hnd.2 (fun f hf => hle f (List.mem_cons_of_mem e hf))
        (fun f hf => hkey f (List.mem_cons_of_mem e hf))
    · have hea : e.1 = a :=
        hkey e (List.mem_cons_self e es) (Nat.pos_of_ne_zero hz)
      have hrest : (es.map (fun f => f.2.count c)).sum = 0 := by
        rw [List.sum_eq_zero]
        intro x hx
        obtain ⟨f, hf, rfl⟩ := List.mem_map.mp hx
        by_contra hfx
        have hfa : f.1 = a :=
          hkey f (List.mem_cons_of_mem e hf) (Nat.pos_of_ne_zero hfx)
        exact hnd.1 (by
          rw [hea, ← hfa]
          exact List.mem_map.mpr ⟨f, hf, rfl⟩)
      rw [hrest]
      have h1 := hle e (List.mem_cons_self e es)
      omega

theorem inDegree_le_one (net : ReferralNetwork) (hinv : NetInv net)
    (c : String) : inDegree net c ≤ 1 := by
  obtain ⟨hkeys, hents, hedge, _⟩ := hinv
  have hcount : ∀ e ∈ net.referrals, 0 < e.2.count c →
      findVal c net.referrers = some e.1 := by
    intro e he hpos
    have hmem : c ∈ e.2 := by
      by_contra hm
      rw [List.count_eq_zero.mpr hm] at hpos
      omega
    have hedge1 : NetEdge net e.1 c := by
      unfold NetEdge adjOf
      rw [findVal_of_mem_nodup net.referrals hkeys e he]
      exact hmem
    exact (hedge e.1 c).mp hedge1
  unfold inDegree
  cases hfc : findVal c net.referrers with
  | none =>
    refine sum_count_le_one c "" net.referrals hkeys ?_ ?_
    · intro e he
      exact List.nodup_iff_count_le_one.mp (hents e he) c
    · intro e he hpos
      have h2 := hcount e he hpos
      rw [hfc] at h2
      exact absurd h2 (by simp)
  | some a =>
    refine sum_count_le_one c a net.referrals hkeys ?_ ?_
    · intro e he
      exact List.nodup_iff_count_le_one.mp (hents e he) c
    · intro e he hpos
      have h2 := hcount e he hpos
      rw [hfc] at h2
      exact (Option.some.inj h2).symm

theorem netInv_empty : NetInv emptyNetwork := by
  refine ⟨by simp [emptyNetwork], by simp [emptyNetwork], ?_, ?_⟩
  · intro a b
    constructor
    · intro h
      exact absurd h (by simp [NetEdge, adjOf, emptyNetwork, findVal])
    · intro h
      exact absurd h (by simp [emptyNetwork, findVal])
  · intro x hcyc
    obtain ⟨y, hxy, _⟩ := Relation.TransGen.head'_iff.mp hcyc
    exact absurd hxy (by simp [NetEdge, adjOf, emptyNetwork, findVal])

theorem netInv_foldl (ops : List (String × String)) :
    ∀ net, NetInv net →
      NetInv (ops.foldl (fun n op => (addReferral n op.1 op.2).2) net) := by
  induction ops with
  | nil =>
    intro net h
    exact h
  | cons op rest ih =>
    intro net h
    exact ih _ (netInv_addReferral net op.1 op.2 h)

/-- C1: for every sequence of `addReferral` calls on an initially empty
network, whatever mix of accepted and rejected calls, the resulting graph
satisfies both structural invariants: every candidate has in-degree at most
one (it appears in at most one stored adjacency set, and never twice), and
the graph is acyclic (no node reaches itself through one or more directed
edges). -/
theorem C1_invariants (ops : List (String × String)) :
    (∀ cand, inDegree (runReferrals ops) cand ≤ 1) ∧
    AcyclicNet (runReferrals ops) := by
  have hinv : NetInv (runReferrals ops) := by
    unfold runReferrals
    exact netInv_foldl ops emptyNetwork netInv_empty
  exact ⟨fun cand => inDegree_le_one _ hinv cand, hinv.2.2.2⟩
